import Mathlib

/-!
Verification of the Mini-Google in-memory search engine (src/Mini.cpp) against
its natural-language specification.  The C++ code is shallowly embedded: byte
strings become `List Char` (only ASCII classification is ever applied, matching
the C locale used by the source), machine integers become `Nat`/`Int` with
explicit two's-complement wrapping where the source stores into 16-bit fields,
and the float transcendentals `log`/`log10` are kept as parameters (a `RF`
record of rational functions), so every arithmetic formula of the ranker is
carried symbolically and exactly.
-/

/-- Byte strings of the C++ code, one `Char` per byte. -/
abbrev Str := List Char

/-- C-locale `isalnum` restricted to ASCII, as used on the source's bytes. -/
def isAlnumA (c : Char) : Bool :=
  decide ((48 ≤ c.toNat ∧ c.toNat ≤ 57) ∨ (65 ≤ c.toNat ∧ c.toNat ≤ 90) ∨
    (97 ≤ c.toNat ∧ c.toNat ≤ 122))

/-- C-locale `isdigit`. -/
def isDigitA (c : Char) : Bool := decide (48 ≤ c.toNat ∧ c.toNat ≤ 57)

/-- C-locale `isalpha` restricted to ASCII. -/
def isAlphaA (c : Char) : Bool :=
  decide ((65 ≤ c.toNat ∧ c.toNat ≤ 90) ∨ (97 ≤ c.toNat ∧ c.toNat ≤ 122))

/-- C-locale `tolower` (ASCII fold). -/
def toLowerA (c : Char) : Char :=
  if 65 ≤ c.toNat ∧ c.toNat ≤ 90 then Char.ofNat (c.toNat + 32) else c

/-- Mini.cpp `toLowerFast`: lowercase every byte. -/
def toLowerFast (s : Str) : Str := s.map toLowerA

/-- The fixed stop-word set of `tokenize_ultrafast` (Mini.cpp lines 221-228). -/
def STOP_WORDS : List Str :=
  (["the", "and", "for", "are", "but", "not", "you", "all", "any", "can",
    "had", "her", "was", "one", "our", "out", "day", "get", "has", "him",
    "his", "how", "man", "new", "now", "old", "see", "two", "way", "who",
    "boy", "did", "its", "let", "put", "say", "she", "too", "use", "may",
    "also", "than", "that", "this", "with", "from", "have", "were", "been",
    "they", "what", "when", "where", "which", "will", "your", "their"] :
    List String).map String.data

/-- Emission filter applied to a completed (already lowercased) token buffer:
length 2-15, not a stop word, not all digits (Mini.cpp lines 236-240, and the
identical trailing-buffer flush at lines 247-253). -/
def flushToken (buf : Str) : Option Str :=
  if 2 ≤ buf.length ∧ buf.length ≤ 15 then
    if buf ∈ STOP_WORDS ∨ buf.all isDigitA then none else some buf
  else none

/-- The scanning loop of `tokenize_ultrafast` (Mini.cpp lines 230-253).
`buf` is the 31-byte scan buffer (bytes beyond 31 are discarded without
terminating the run), `n` is `n_added`.  The loop stops at a NUL byte
(`*ptr` test on `c_str()`) or once `n_added` reaches 100000, and the buffer
still in hand is then flushed through the same filter. -/
def tokLoop : Str → Str → Nat → List Str
  | [], buf, _ => (flushToken buf).toList
  | c :: rest, buf, n =>
    if c.toNat = 0 then (flushToken buf).toList
    else if 100000 ≤ n then (flushToken buf).toList
    else if isAlnumA c then
      tokLoop rest (if buf.length < 31 then buf ++ [toLowerA c] else buf) n
    else
      match flushToken buf with
      | some w => w :: tokLoop rest [] (n + 1)
      | none => tokLoop rest [] n

/-- Mini.cpp `tokenize_ultrafast`. -/
def tokenize_ultrafast (text : Str) : List Str := tokLoop text [] 0

/-! ## Data model (Mini.cpp lines 375-405) -/

/-- Narrowing of a non-negative token index into the C++ `short` field
`positions[]` (two's-complement 16-bit). -/
def toSigned16 (n : Nat) : Int :=
  if n % 65536 < 32768 then (n % 65536 : Int) else (n % 65536 : Int) - 65536

/-- Two's-complement 16-bit wrap of an `Int`, for accumulations stored back
into a `short` field. -/
def wrapS16 (z : Int) : Int := (z + 32768) % 65536 - 32768

/-- Mini.cpp `Posting`: `docID`, `freq` (a `short`, capped at 1000 so it never
wraps), and the stored `positions` array (value semantics: the fixed array plus
`pos_size` becomes a list of the stored `short` values). -/
structure Posting where
  docID : Int
  freq : Nat
  positions : List Int
deriving DecidableEq

/-- Mini.cpp `Document`. -/
structure Document where
  filename : Str
  filepath : Str
  totalTokens : Nat
  fileSize : Nat
  full_content : Str
deriving DecidableEq

/-- Default-constructed `Document`, the value an out-of-range map read yields. -/
def dfltDoc : Document := ⟨[], [], 0, 0, []⟩

/-! ## Association-list helpers

`unordered_map` values are modelled as association lists whose key order is the
order in which keys were first touched (the iteration order of
`unordered_map` is unspecified, so any fixed order is a valid model; first-touch
order is the deterministic choice).  `alistLookup` is `find`, `alistUpdate` is
`operator[]` followed by a mutation of the mapped value (default-constructing
the value for an absent key). -/

def alistLookup {κ α : Type} [DecidableEq κ] (k : κ) : List (κ × α) → Option α
  | [] => none
  | (k', v) :: rest => if k' = k then some v else alistLookup k rest

def alistUpdate {κ α : Type} [DecidableEq κ] (k : κ) (dflt : α) (f : α → α) :
    List (κ × α) → List (κ × α)
  | [] => [(k, f dflt)]
  | (k', v) :: rest =>
    if k' = k then (k', f v) :: rest else (k', v) :: alistUpdate k dflt f rest

/-! ## Generic insertion sort

`std::sort` is modelled by insertion sort with the same comparator
(`comp x y` = "x must come before y").  For a strict-weak-order comparator this
agrees with `std::sort` up to the order of equivalent elements, which no stated
property depends on; all claims proved below use only the permutation property
and the pairwise ordering of the output. -/

def insertBy {α : Type} (comp : α → α → Bool) (x : α) : List α → List α
  | [] => [x]
  | y :: ys => if comp x y then x :: y :: ys else y :: insertBy comp x ys

def sortBy {α : Type} (comp : α → α → Bool) : List α → List α
  | [] => []
  | x :: xs => insertBy comp x (sortBy comp xs)

/-! ## The trie (Mini.cpp `UltraFastTrie`, lines 101-204)

A C++ node is `node is_end children`; a null child pointer is `TrieN.nil`.
The root always exists, so a trie built by the engine is always a `node`. -/

inductive TrieN where
  | nil : TrieN
  | node : Bool → (Fin 26 → TrieN) → TrieN

/-- `int idx = c - 'a'; if (idx < 0 || idx >= 26) ...` (lines 158-159). -/
def charIdx (c : Char) : Option (Fin 26) :=
  if h : 97 ≤ c.toNat ∧ c.toNat ≤ 122 then some ⟨c.toNat - 97, by omega⟩ else none

def trieChild : TrieN → Fin 26 → TrieN
  | .nil, _ => .nil
  | .node _ c, i => c i

def trieIsEnd : TrieN → Bool
  | .nil => false
  | .node e _ => e

/-- A fresh node, `new Node()`. -/
def trieEmpty : TrieN := .node false (fun _ => .nil)

/-- Overwrite one child slot; on a null node this first materializes it. -/
def setChild : TrieN → Fin 26 → TrieN → TrieN
  | .nil, i, x => .node false (fun j => if j = i then x else .nil)
  | .node e c, i, x => .node e (fun j => if j = i then x else c j)

/-- Mark the current node end-of-word (`cur->is_end = true`). -/
def setEnd : TrieN → TrieN
  | .nil => .node true (fun _ => .nil)
  | .node _ c => .node true c

/-- The walk of `UltraFastTrie::insert` (lines 156-163): for each character,
abort (returning the nodes already created) on a non-`a..z` byte, otherwise
create the child if missing and descend. -/
def insertGo : TrieN → Str → TrieN
  | t, [] => setEnd t
  | t, c :: rest =>
    match charIdx c with
    | none => t
    | some i =>
      let child := match trieChild t i with
        | .nil => trieEmpty
        | x => x
      setChild t i (insertGo child rest)

/-- Mini.cpp `UltraFastTrie::insert` (lines 154-164): reject empty words and
words longer than 25 bytes, then walk/create. -/
def UltraFastTrie.insert (t : TrieN) (word : Str) : TrieN :=
  if word.isEmpty ∨ 25 < word.length then t else insertGo t word

/-- Node count of a (finite) trie, the BFS termination measure. -/
def sizeT : TrieN → Nat
  | .nil => 0
  | .node _ c => 1 + ∑ i : Fin 26, sizeT (c i)

/-- Walk a byte string down the trie as `starts_with` does (lines 173-181):
fail on a non-letter byte or a missing child. -/
def trieWalk : TrieN → Str → Option TrieN
  | t, [] => some t
  | t, c :: rest =>
    match charIdx c with
    | none => none
    | some i =>
      match trieChild t i with
      | .nil => none
      | x => trieWalk x rest

/-! ## BFS of `starts_with` (Mini.cpp lines 183-196)

The C++ `FixedQueue` holds at most 1024 entries and `push` silently fails when
full; the queue is a list with the front at the head.  The `while` loop runs
until the queue empties or `limit` results are collected; each iteration pops
one node and pushes (some of) its children, so the sum of subtree sizes in the
queue strictly decreases: `sizeT` of the start node plus one is enough fuel,
and `bfsGo_fuel_irrel` below shows any sufficient fuel computes the same
result (the fueled recursion is therefore the loop's unique fixpoint). -/

def qPush (q : List (TrieN × Str)) (x : TrieN × Str) : List (TrieN × Str) :=
  if q.length < 1024 then q ++ [x] else q

/-- `for (int i = 0; i < 26 && results.size < limit; i++)`: the result count
does not change inside this loop, so it pushes either every existing child in
alphabetical order or none (the guard is handled by the caller). -/
def pushChildren (q : List (TrieN × Str)) (t : TrieN) (s : Str) :
    List (TrieN × Str) :=
  (List.finRange 26).foldl
    (fun q i =>
      match trieChild t i with
      | .nil => q
      | x => qPush q (x, s ++ [Char.ofNat (97 + i.val)]))
    q

def bfsGo (limit : Nat) : Nat → List (TrieN × Str) → List Str → List Str
  | 0, _, acc => acc
  | _ + 1, [], acc => acc
  | fuel + 1, (t, s) :: rest, acc =>
    if limit ≤ acc.length then acc
    else
      let acc2 := if trieIsEnd t then acc ++ [s] else acc
      let q2 := if acc2.length < limit then pushChildren rest t s else rest
      bfsGo limit fuel q2 acc2

/-- Total size of the subtrees in the queue, the BFS termination measure. -/
def qMeasure (q : List (TrieN × Str)) : Nat := (q.map (fun e => sizeT e.1)).sum

/-! ## The two FIFO-intended caches (Mini.cpp lines 121-140 and 563-583)

Both `insert_in_cache` routines keep a singly linked list with the most
recently inserted entry at the head; when 1000 entries are held, they first
delete the head entry and then push the new entry at the head.  Lookups scan
from the head. -/

/-- Mini.cpp `UltraFastTrie::find_in_cache` (lines 121-126). -/
def UltraFastTrie.find_in_cache (key : Str) (cache : List (Str × List Str)) :
    Option (List Str) := alistLookup key cache

/-- Mini.cpp `UltraFastTrie::insert_in_cache` (lines 128-140): evict the head
entry when 1000 entries are held, then push the new entry at the head. -/
def UltraFastTrie.insert_in_cache (key : Str) (results : List Str)
    (cache : List (Str × List Str)) : List (Str × List Str) :=
  (key, results) :: (if 1000 ≤ cache.length then cache.tail else cache)

/-- Mini.cpp `UltraFastTrie::starts_with` (lines 165-198), with the mutable
cache made explicit: returns the results and the updated cache.  The cache key
is `<pfx>|<limit>`. -/
def UltraFastTrie.starts_with (t : TrieN) (cache : List (Str × List Str))
    (pfx : Str) (limit : Nat) : List Str × List (Str × List Str) :=
  let key := pfx ++ '|' :: (Nat.repr limit).data
  match UltraFastTrie.find_in_cache key cache with
  | some r => (r, cache)
  | none =>
    if pfx.isEmpty then ([], UltraFastTrie.insert_in_cache key [] cache)
    else
      match trieWalk t pfx with
      | none => ([], UltraFastTrie.insert_in_cache key [] cache)
      | some cur =>
        let res := bfsGo limit (sizeT cur + 1) [(cur, pfx)] []
        (res, UltraFastTrie.insert_in_cache key res cache)

/-! ## Index construction (Mini.cpp `HyperOptimizedIndex`, lines 420-548) -/

/-- One occurrence of a term at token index `i` (lines 482-488): create the
posting on first touch, then increment `freq` while below 1000 and record the
token index (narrowed to `short`) while fewer than 50 positions are stored. -/
def postingBump (i : Nat) (p : Posting) : Posting :=
  if p.freq < 1000 then
    { p with
      freq := p.freq + 1,
      positions :=
        if p.positions.length < 50 then p.positions ++ [toSigned16 i]
        else p.positions }
  else p

/-- The per-document `local` map fold (lines 479-491), `i` being the running
token index. -/
def locFold (docId : Int) : List Str → Nat → List (Str × Posting) →
    List (Str × Posting)
  | [], _, m => m
  | t :: ts, i, m =>
    locFold docId ts (i + 1) (alistUpdate t (Posting.mk docId 0 []) (postingBump i) m)

/-- The vocabulary set/list pair (lines 489-490), collapsed to one
insertion-ordered duplicate-free list. -/
def uwStep (uw : List Str) (t : Str) : List Str :=
  if t ∈ uw then uw else uw ++ [t]

/-- `idx[kv.first].push_back(kv.second)` over the local map (lines 493-495). -/
def addLocal (idx : List (Str × List Posting)) (loc : List (Str × Posting)) :
    List (Str × List Posting) :=
  loc.foldl (fun ix kv => alistUpdate kv.1 [] (fun ps => ps ++ [kv.2]) ix) idx

/-- `path.find_last_of("/\\")` + `substr` (lines 464-465): the basename is what
follows the last slash or backslash, or the whole path if there is none. -/
def baseName (p : Str) : Str :=
  p.foldl (fun acc c => if c = '/' ∨ c = '\\' then [] else acc ++ [c]) []

/-- An input to the builder: a path and the bytes the (external) file reader
delivers for it.  Unreadable files never reach the loop body, so inputs here
are the readable ones. -/
structure FileInput where
  path : Str
  content : Str
deriving DecidableEq

/-- The running build state: the inverted index, the document list, the
vocabulary (insertion-ordered, duplicate-free) and the next `docId`. -/
structure BuildSt where
  idx : List (Str × List Posting)
  docs : List Document
  uw : List Str
  nextId : Int
deriving DecidableEq

/-- Loop body of `build_from_files` for one readable, non-oversized file
(lines 460-499). -/
def processFile (st : BuildSt) (f : FileInput) : BuildSt :=
  let tokens := tokenize_ultrafast f.content
  let doc : Document :=
    { filename := baseName f.path
      filepath := f.path
      totalTokens := tokens.length
      fileSize := f.content.length
      full_content := f.content }
  { idx := addLocal st.idx (locFold st.nextId tokens 0 [])
    docs := st.docs ++ [doc]
    uw := tokens.foldl uwStep st.uw
    nextId := st.nextId + 1 }

/-- The file loop (lines 447-513): skip files over 100 MiB (without the
word-limit check, mirroring `continue`), and stop entirely once the vocabulary
exceeds 200000 words after a processed file. -/
def buildGo : BuildSt → List FileInput → BuildSt
  | st, [] => st
  | st, f :: fs =>
    if 100 * 1024 * 1024 < f.content.length then buildGo st fs
    else
      let st2 := processFile st f
      if 200000 < st2.uw.length then st2 else buildGo st2 fs

/-- Length-sorted vocabulary (lines 516-526).  The source bubble-sorts by
length; the tie order among equal lengths is irrelevant to every stated
property (the trie is a set), so insertion sort with the same key is used. -/
def sortByLen (ws : List Str) : List Str :=
  sortBy (fun a b => decide (a.length < b.length)) ws

/-- The final index state of `HyperOptimizedIndex`. -/
structure Index where
  idx : List (Str × List Posting)
  docFreq : List (Str × Nat)
  docs : List Document
  trie : TrieN

/-- Mini.cpp `HyperOptimizedIndex::build_from_files` (lines 437-547): clear,
ingest each file, then build the trie from the length-sorted vocabulary
(words of length 2-20 only, lines 527-530) and derive `docFreq` as the posting
count per term saturated at 32767 (lines 533-538). -/
def HyperOptimizedIndex.build_from_files (files : List FileInput) : Index :=
  if files.isEmpty then ⟨[], [], [], trieEmpty⟩
  else
    let st := buildGo ⟨[], [], [], 0⟩ files
    let trie := ((sortByLen st.uw).filter
        (fun w => decide (2 ≤ w.length ∧ w.length ≤ 20))).foldl
      UltraFastTrie.insert trieEmpty
    let df := st.idx.map (fun kv => (kv.1, min kv.2.length 32767))
    ⟨st.idx, df, st.docs, trie⟩

/-! ## Substring utilities (std::string::find and friends) -/

/-- Is `pat` a byte-wise prefix of `s`? -/
def isPref : Str → Str → Bool
  | [], _ => true
  | _ :: _, [] => false
  | a :: as, b :: bs => a = b && isPref as bs

/-- `hay.find(pat)`: position of the first occurrence, if any.  An empty
pattern is found at position 0, as in C++. -/
def findSub (hay pat : Str) : Option Nat :=
  if isPref pat hay then some 0
  else
    match hay with
    | [] => none
    | _ :: rest => (findSub rest pat).map (· + 1)

/-- `hay.find(pat) != npos`. -/
def containsSub (hay pat : Str) : Bool := (findSub hay pat).isSome

/-- All positions at which `pat` occurs in `hay`, in increasing order — the
result of the C++ `while ((pos = text.find(term, pos)) != npos) { ...; pos += 1; }`
loop (Mini.cpp lines 265-269). -/
def occPositions (hay pat : Str) : List Nat :=
  (List.range hay.length).filter (fun p => isPref pat (hay.drop p))

/-! ## The search engine (Mini.cpp `HyperFastSearchEngine`, lines 551-783) -/

/-- The two float transcendentals of the ranker, `log` (natural) and `log10`,
kept as parameters over `ℚ`: every ranking formula below is exact in these. -/
structure RF where
  ln : ℚ → ℚ
  log10 : ℚ → ℚ

/-- Mini.cpp `RankedDoc` (lines 407-417).  `totalOccurrences` is a `short`
accumulator, hence an `Int` kept in `[-32768, 32767]` by `wrapS16`. -/
structure RankedDoc where
  docID : Int
  score : ℚ
  totalOccurrences : Int
  inTitle : Bool
  exactPhraseMatch : Bool
  titleBoost : ℚ
deriving DecidableEq

/-- Mini.cpp `RankedDoc::operator<` (lines 411-416): compare by
`exactPhraseMatch`, then `titleBoost`, then `score` with a 1e-4 tolerance
(scores within the tolerance are ties), then `totalOccurrences`. -/
def rdLtB (a b : RankedDoc) : Bool :=
  if a.exactPhraseMatch ≠ b.exactPhraseMatch then
    !a.exactPhraseMatch && b.exactPhraseMatch
  else if a.titleBoost ≠ b.titleBoost then decide (a.titleBoost < b.titleBoost)
  else if (1 : ℚ) / 10000 < |a.score - b.score| then decide (a.score < b.score)
  else decide (a.totalOccurrences < b.totalOccurrences)

/-- `sort(all_results_raw.begin(), .end(), [](a, b){ return b < a; })`
(lines 725-727): descending order under `operator<`. -/
def sortRanked (l : List RankedDoc) : List RankedDoc :=
  sortBy (fun a b => rdLtB b a) l

/-- The engine: the built index, `Ndocs`, and the mutable search cache. -/
structure Engine where
  index : Index
  Ndocs : Nat
  search_cache : List (Str × List RankedDoc)

/-- Mini.cpp `HyperFastSearchEngine::find_in_cache` (lines 571-574). -/
def HyperFastSearchEngine.find_in_cache (key : Str)
    (cache : List (Str × List RankedDoc)) : Option (List RankedDoc) :=
  alistLookup key cache

/-- Mini.cpp `HyperFastSearchEngine::insert_in_cache` (lines 575-583): evict
the head entry when 1000 entries are held, then push the new one at the head. -/
def HyperFastSearchEngine.insert_in_cache (key : Str) (results : List RankedDoc)
    (cache : List (Str × List RankedDoc)) : List (Str × List RankedDoc) :=
  (key, results) :: (if 1000 ≤ cache.length then cache.tail else cache)

/-- Mini.cpp `HyperFastSearchEngine::idf` (lines 607-613). -/
def HyperFastSearchEngine.idf (fns : RF) (e : Engine) (term : Str) : ℚ :=
  match alistLookup term e.index.docFreq with
  | none => 0
  | some df => if df = 0 ∨ e.Ndocs = 0 then 0
    else fns.log10 ((e.Ndocs : ℚ) / (df : ℚ) + 1)

/-- Read of the document table at a `docID` key: identical to the per-doc maps
(`has_title_match` etc.) the source fills for docIDs `0..N-1`, with the
default-constructed value for any other key. -/
def docAt (docs : List Document) (d : Int) : Document :=
  if h : 0 ≤ d ∧ d.toNat < docs.length then docs.get ⟨d.toNat, h.2⟩ else dfltDoc

/-- Character read `fl[i]` with a dummy default (only evaluated in-bounds by
construction, mirroring the short-circuit guards of the source). -/
def charAtD (s : Str) (i : Nat) : Char := (s.get? i).getD (Char.ofNat 0)

/-- The per-hit term score of the title loop (lines 658-668): 1.0, promoted to
2.0 for a whole-word occurrence, times 1.5 if the hit begins in the first 20
bytes of the filename. -/
def titleTermScore (fl : Str) (term : Str) (pos : Nat) : ℚ :=
  let ww : Bool :=
    (decide (pos = 0) || !(isAlnumA (charAtD fl (pos - 1)))) &&
    (decide (pos + term.length = fl.length) ||
      !(isAlnumA (charAtD fl (pos + term.length))))
  let ts : ℚ := if ww then 2 else 1
  if pos < 20 then ts * (3 / 2) else ts

/-- `title_score` accumulated over the query tokens (lines 653-669); tokens of
length < 3 are skipped, and a duplicated query token contributes once per
occurrence in the token list, as in the source loop. -/
def titleScore (fl : Str) (qtokens : List Str) : ℚ :=
  qtokens.foldl
    (fun acc term =>
      if term.length < 3 then acc
      else
        match findSub fl term with
        | none => acc
        | some pos => acc + titleTermScore fl term pos)
    0

/-- `has_title_match[docID]` (set at line 667 whenever some term is found). -/
def hasTitle (fl : Str) (qtokens : List Str) : Bool :=
  qtokens.any (fun term => decide (3 ≤ term.length) && (findSub fl term).isSome)

/-- `title_match_bonus[docID]`: stored only when positive (line 670), read
through `operator[]` which defaults to 0. -/
def bonusOf (fl : Str) (qtokens : List Str) : ℚ :=
  let s := titleScore fl qtokens
  if 0 < s then s else 0

/-- `exact_phrase_docs` (lines 638-645): docIDs whose lowercased content has
the phrase as a substring; only computed for queries of at least two tokens. -/
def exactPhraseDocs (docs : List Document) (phrase : Str) : List Int :=
  (List.range docs.length).filterMap
    (fun i =>
      if containsSub (toLowerFast ((docs.get? i).getD dfltDoc).full_content) phrase
      then some (i : Int) else none)

/-- `index.docs.head->val.totalTokens` — the token count of the FIRST document
in the table, which is what the source reads at lines 683, 689 and 704 for
every posting and every scored document. -/
def headTokens (docs : List Document) : Nat :=
  match docs with
  | [] => 0
  | d :: _ => d.totalTokens

/-- Accumulator state of the scoring loop: `doc_scores` and `doc_occurrences`
(`short`-valued, hence wrapped). -/
structure ScoreSt where
  scores : List (Int × ℚ)
  occs : List (Int × Int)
deriving DecidableEq

/-- The body of the posting loop (lines 680-699), with `tokSrc` the token
count the tf/position formulas read — the source passes `headTokens docs`
here (the first document's count).  When the float `doc_len` is zero the C++
ratio is `inf`/`NaN` and the `< 0.2` test is false, hence the explicit guard. -/
def accPosting (fns : RF) (tokSrc : Posting → Nat) (epd : List Int)
    (hasT : Int → Bool) (bonus : Int → ℚ) (idfv : ℚ) (st : ScoreSt)
    (pp : Posting) : ScoreSt :=
  let tfT : ℚ := (tokSrc pp : ℚ)
  let tf : ℚ := (pp.freq : ℚ) / (1 + fns.ln (1 + tfT / 1000))
  let pw : ℚ :=
    if pp.positions.length ≠ 0 then
      let avg : ℚ := ((pp.positions.map (fun z => (z : ℚ))).sum) /
        (pp.positions.length : ℚ)
      if tfT ≠ 0 ∧ avg / tfT < 1 / 5 then 1 + (1 / 5 - avg / tfT) * 2 else 1
    else 1
  let b := tf * idfv * pw
  let b := if hasT pp.docID then b * (10 + bonus pp.docID * 5) else b
  let b := if pp.docID ∈ epd then b * 5 else b
  let b := if 10 < pp.freq then b * min (1 + fns.ln ((pp.freq : ℚ)) / 5) 3 else b
  { scores := alistUpdate pp.docID 0 (· + b) st.scores
    occs := alistUpdate pp.docID 0 (fun o => wrapS16 (o + (pp.freq : Int))) st.occs }

/-- The scoring loop over the query tokens (lines 675-700). -/
def scoreQuery (fns : RF) (e : Engine) (tokSrc : Posting → Nat)
    (qtokens : List Str) (epd : List Int) (hasT : Int → Bool)
    (bonus : Int → ℚ) : ScoreSt :=
  qtokens.foldl
    (fun st term =>
      match alistLookup term e.index.idx with
      | none => st
      | some plist =>
        plist.foldl
          (fun st p =>
            accPosting fns tokSrc epd hasT bonus
              (HyperFastSearchEngine.idf fns e term) st p)
          st)
    ⟨[], []⟩

/-- Document-length normalization and final title boost (lines 701-710), with
`lenSrc` the token count read per scored document — the source again reads
`headTokens docs` for every document. -/
def normalizeScores (lenSrc : Int → Nat) (hasT : Int → Bool) (bonus : Int → ℚ)
    (scores : List (Int × ℚ)) : List (Int × ℚ) :=
  scores.map
    (fun kv =>
      let docLength := lenSrc kv.1
      let s := kv.2
      let s := if docLength < 100 then s * (1 / 10)
        else if 1000 < docLength ∧ docLength < 100000 then s * (6 / 5)
        else if 200000 < docLength then s * (9 / 10)
        else s
      let s := if hasT kv.1 then s * (1 + bonus kv.1) else s
      (kv.1, s))

/-- The gather loop (lines 712-724): skip scores `≤ 1e-6`, build a
`RankedDoc` per remaining entry. -/
def gatherResults (scores : List (Int × ℚ)) (occs : List (Int × Int))
    (epd : List Int) (hasT : Int → Bool) (bonus : Int → ℚ) : List RankedDoc :=
  (scores.filter (fun kv => !decide (kv.2 ≤ 1 / 1000000))).map
    (fun kv =>
      { docID := kv.1
        score := kv.2
        totalOccurrences := (alistLookup kv.1 occs).getD 0
        inTitle := hasT kv.1
        exactPhraseMatch := kv.1 ∈ epd
        titleBoost := if hasT kv.1 then bonus kv.1 else 0 })

/-! ## Snippet extraction (Mini.cpp `get_snippet_improved`, lines 259-294) -/

/-- `std::string::operator<`: byte-lexicographic comparison (tie order of the
match sort; the snippet window depends only on the position). -/
def strLtB : Str → Str → Bool
  | [], [] => false
  | [], _ :: _ => true
  | _ :: _, [] => false
  | a :: as, b :: bs => if a < b then true else if b < a then false else strLtB as bs

/-- `pair<size_t, string>::operator<`. -/
def pairLtB (x y : Nat × Str) : Bool :=
  decide (x.1 < y.1) || (decide (x.1 = y.1) && strLtB x.2 y.2)

/-- Index of the first `'\n'` in `s`, or `s.length` (`find('\n', i)` with the
`npos → length` fallback, relative to the suffix starting at `i`). -/
def idxOfNl : Str → Nat
  | [] => 0
  | c :: rest => if c = '\n' then 0 else 1 + idxOfNl rest

/-- The no-match fallback loop (lines 272-281): scan positions left to right;
at an alphabetic byte take the slice from there to the earlier of the next
newline or 300 bytes, and return the first such slice longer than 50 bytes;
when the scan is exhausted, return the first 300 bytes. -/
def noMatchGo (full : Str) : Str → Str
  | [] => full.take (min 300 full.length)
  | c :: rest =>
    if isAlphaA c then
      let lineLen := idxOfNl (c :: rest)
      let snip := (c :: rest).take (min 300 lineLen)
      if 50 < snip.length then snip else noMatchGo full rest
    else noMatchGo full rest

/-- The window built for a match at byte `pos` (lines 285-290): up to 200
bytes of context on each side, with `"..."` added on any clipped side. -/
def windowAt (text : Str) (pos : Nat) : Str :=
  let cs := if 200 < pos then pos - 200 else 0
  let ce := min (pos + 200) text.length
  let snip := (text.drop cs).take (ce - cs)
  let snip := if 0 < cs then ("...".data) ++ snip else snip
  if ce < text.length then snip ++ ("...".data) else snip

/-- The match loop (lines 284-293): return the first window longer than 100
bytes, else fall back to the first 300 bytes. -/
def matchLoop (text : Str) : List (Nat × Str) → Str
  | [] => text.take (min 300 text.length)
  | (pos, _) :: rest =>
    let snip := windowAt text pos
    if 100 < snip.length then snip else matchLoop text rest

/-- All `(position, term)` matches, per term in list order (lines 262-270). -/
def allMatches (text : Str) (query_terms : List Str) : List (Nat × Str) :=
  query_terms.foldl
    (fun acc term =>
      if term.length < 2 then acc
      else acc ++ (occPositions text term).map (fun p => (p, term)))
    []

/-- Mini.cpp `get_snippet_improved` (lines 259-294). -/
def get_snippet_improved (text : Str) (query_terms : List Str) : Str :=
  if text.isEmpty ∨ query_terms.isEmpty then []
  else
    let ms := allMatches text query_terms
    if ms.isEmpty then noMatchGo text text
    else matchLoop text (sortBy pairLtB ms)

/-! ## Query pipeline assembly -/

/-- Query tokens: lowercase then tokenize (lines 626-630). -/
def qtokensOf (query : Str) : List Str := tokenize_ultrafast (toLowerFast query)

/-- The three early-exit guards of `search_with_ranking` (lines 623, 631, 637):
a query is scored only when `Ndocs` is nonzero, it has tokens, and the
document table is nonempty. -/
def searchActive (e : Engine) (query : Str) : Bool :=
  !decide (e.Ndocs = 0) && !(qtokensOf query).isEmpty && !e.index.docs.isEmpty

/-- `exact_phrase_docs` for this query (computed only for multi-token
queries, line 638). -/
def epdOf (e : Engine) (query : Str) : List Int :=
  if 2 ≤ (qtokensOf query).length then
    exactPhraseDocs e.index.docs (toLowerFast query)
  else []

/-- `has_title_match` as a function of the docID (lines 650-671). -/
def hasTOf (e : Engine) (query : Str) : Int → Bool :=
  fun d => hasTitle (toLowerFast (docAt e.index.docs d).filename) (qtokensOf query)

/-- `title_match_bonus` as a function of the docID (lines 650-671). -/
def bonusTOf (e : Engine) (query : Str) : Int → ℚ :=
  fun d => bonusOf (toLowerFast (docAt e.index.docs d).filename) (qtokensOf query)

/-- The token count the source's tf / position-ratio formulas read for a
posting: `index.docs.head->val.totalTokens` — the FIRST document's count,
regardless of the posting (lines 683 and 689). -/
def codeTokSrc (e : Engine) : Posting → Nat := fun _ => headTokens e.index.docs

/-- The token count the source's document-length normalization reads for a
scored document: again the FIRST document's count (line 704). -/
def codeLenSrc (e : Engine) : Int → Nat := fun _ => headTokens e.index.docs

/-- The accumulated `doc_scores` / `doc_occurrences` of a query. -/
def scoreStOf (fns : RF) (e : Engine) (query : Str) : ScoreSt :=
  scoreQuery fns e (codeTokSrc e) (qtokensOf query) (epdOf e query)
    (hasTOf e query) (bonusTOf e query)

/-- `doc_scores` after document-length normalization and title boost
(lines 701-710), or `[]` on the early-exit paths. -/
def finalScores (fns : RF) (e : Engine) (query : Str) : List (Int × ℚ) :=
  if searchActive e query then
    normalizeScores (codeLenSrc e) (hasTOf e query) (bonusTOf e query)
      (scoreStOf fns e query).scores
  else []

/-- `all_results_raw` (lines 712-724). -/
def gatheredResults (fns : RF) (e : Engine) (query : Str) : List RankedDoc :=
  gatherResults (finalScores fns e query) (scoreStOf fns e query).occs
    (epdOf e query) (hasTOf e query) (bonusTOf e query)

/-- The full ranked result list of a query (before pagination). -/
def rankedAll (fns : RF) (e : Engine) (query : Str) : List RankedDoc :=
  sortRanked (gatheredResults fns e query)

/-- The pagination slice (lines 730-733): indices
`[(page-1)*size, min((page-1)*size + size, total))`. -/
def sliceResults (l : List RankedDoc) (page size : Nat) : List RankedDoc :=
  let start := (page - 1) * size
  let stop := min (start + size) l.length
  (l.drop start).take (stop - start)

/-- The search-cache key `<query>|PAGE|<page>|<size>` (line 621). -/
def mkCacheKey (query : Str) (page size : Nat) : Str :=
  query ++ ("|PAGE|".data) ++ (Nat.repr page).data ++ ['|'] ++ (Nat.repr size).data

/-- Mini.cpp `HyperFastSearchEngine::search_with_ranking` (lines 620-736) with
the mutable cache made explicit.  On a cache hit the stored list is returned
unchanged; otherwise the ranked slice is computed, cached and returned (each
early-exit path of the source also inserts its empty result, which is exactly
the slice of the empty ranked list). -/
def HyperFastSearchEngine.search_with_ranking (fns : RF) (e : Engine)
    (query : Str) (page size : Nat) : List RankedDoc × Engine :=
  let key := mkCacheKey query page size
  match HyperFastSearchEngine.find_in_cache key e.search_cache with
  | some r => (r, e)
  | none =>
    let res := sliceResults (rankedAll fns e query) page size
    (res, { e with
      search_cache := HyperFastSearchEngine.insert_in_cache key res e.search_cache })

/-- Mini.cpp `HyperFastSearchEngine::get_total_results_count` (lines 614-619):
0 when no documents, else the length of the page-1 slice of size `INT_MAX`. -/
def HyperFastSearchEngine.get_total_results_count (fns : RF) (e : Engine)
    (query : Str) : Nat × Engine :=
  if e.Ndocs = 0 then (0, e)
  else
    let r := HyperFastSearchEngine.search_with_ranking fns e query 1 2147483647
    (r.1.length, r.2)

/-! ## Public accessors (Mini.cpp lines 767-783) -/

def filenameGo : List Document → Int → Int → Str
  | [], _, _ => []
  | d :: ds, curr, docID => if curr = docID then d.filename else filenameGo ds (curr + 1) docID

def filepathGo : List Document → Int → Int → Str
  | [], _, _ => []
  | d :: ds, curr, docID => if curr = docID then d.filepath else filepathGo ds (curr + 1) docID

def snippetGo (query_terms : List Str) : List Document → Int → Int → Str
  | [], _, _ => []
  | d :: ds, curr, docID =>
    if curr = docID then get_snippet_improved d.full_content query_terms
    else snippetGo query_terms ds (curr + 1) docID

/-- Mini.cpp `HyperFastSearchEngine::filename_for` (lines 773-777). -/
def HyperFastSearchEngine.filename_for (e : Engine) (docID : Int) : Str :=
  filenameGo e.index.docs 0 docID

/-- Mini.cpp `HyperFastSearchEngine::filepath_for` (lines 778-782). -/
def HyperFastSearchEngine.filepath_for (e : Engine) (docID : Int) : Str :=
  filepathGo e.index.docs 0 docID

/-- Mini.cpp `HyperFastSearchEngine::get_snippet_for_doc` (lines 767-772). -/
def HyperFastSearchEngine.get_snippet_for_doc (e : Engine)
    (query_terms : List Str) (docID : Int) : Str :=
  snippetGo query_terms e.index.docs 0 docID

/-- The engine state after `index_folder` on a readable directory (lines
585-606): the built index, `Ndocs` set to the document count, and a cleared
search cache. -/
def mkEngine (files : List FileInput) : Engine :=
  let I := HyperOptimizedIndex.build_from_files files
  ⟨I, I.docs.length, []⟩

/-! ## Claim-side definitions

The definitions in this section follow the wording of the specification or of
a claim (for refinement comparisons), or fix the concrete inputs used by
counterexamples and witnesses.  Everything above embeds Mini.cpp itself. -/

/-- The token count claim C1 prescribes for the tf / position-ratio formulas:
the posting's OWN document's `total_tokens` (spec section 4.4.5). -/
def specTokSrc (e : Engine) : Posting → Nat :=
  fun pp => (docAt e.index.docs pp.docID).totalTokens

/-- The token count claim C1 prescribes for document-length normalization:
the scored document's OWN `total_tokens` (spec section 4.4.6). -/
def specLenSrc (e : Engine) : Int → Nat :=
  fun d => (docAt e.index.docs d).totalTokens

/-- The normalized score map computed as claim C1 states it, differing from
`finalScores` only in reading each posting's / scored document's own token
count instead of the first document's. -/
def finalScoresSpec (fns : RF) (e : Engine) (query : Str) : List (Int × ℚ) :=
  if searchActive e query then
    normalizeScores (specLenSrc e) (hasTOf e query) (bonusTOf e query)
      (scoreQuery fns e (specTokSrc e) (qtokensOf query) (epdOf e query)
        (hasTOf e query) (bonusTOf e query)).scores
  else []

/-- The line-bounded slice the fallback scan examines at position `i`. -/
def lineSliceAt (text : Str) (i : Nat) : Str :=
  (text.drop i).take (min 300 (idxOfNl (text.drop i)))

/-- Claim C7 as amended, written as a specification function over the window
and slice combinators: with matches, the earliest (sorted) window of length at
least 100, else the first 300 bytes of the text; with no matches, the first
line-bounded slice longer than 50 bytes starting at an alphabetic position,
else the first 300 bytes of the text. -/
def snippetSpec (text : Str) (query_terms : List Str) : Str :=
  if text.isEmpty ∨ query_terms.isEmpty then []
  else
    let ms := sortBy pairLtB (allMatches text query_terms)
    if ms.isEmpty then
      match (List.range text.length).find?
          (fun i => isAlphaA (charAtD text i) &&
            decide (50 < (lineSliceAt text i).length)) with
      | some i => lineSliceAt text i
      | none => text.take (min 300 text.length)
    else
      match ms.find? (fun m => decide (100 ≤ (windowAt text m.1).length)) with
      | some m => windowAt text m.1
      | none => text.take (min 300 text.length)

/-- Cache consistency: every cached entry equals the ranked slice its key
denotes.  This holds of every state the engine reaches (the cache starts
empty and `search_with_ranking` only inserts its own computed slices), and is
the hypothesis under which the pagination claims are stated. -/
def CacheOK (fns : RF) (e : Engine) : Prop :=
  ∀ q p s r, alistLookup (mkCacheKey q p s) e.search_cache = some r →
    r = sliceResults (rankedAll fns e q) p s

/-- Sequential insertions into the trie prefix cache, oldest first. -/
def trieCacheFold (ks : List Str) (v : Str → List Str) :
    List (Str × List Str) :=
  ks.foldl (fun c k => UltraFastTrie.insert_in_cache k (v k) c) []

/-- Sequential insertions into the engine search cache, oldest first. -/
def searchCacheFold (ks : List Str) (v : Str → List RankedDoc) :
    List (Str × List RankedDoc) :=
  ks.foldl (fun c k => HyperFastSearchEngine.insert_in_cache k (v k) c) []

/-- 1001 pairwise distinct nonempty cache keys (distinguished by length). -/
def c4Keys : List Str := (List.range 1001).map (fun i => List.replicate (i + 1) 'a')

/-- Concrete two-document corpus for claim C1: the first document has 2
tokens, the second (holding the queried term) has 1. -/
def engC1 : Engine :=
  mkEngine [⟨"a.txt".data, "aa aa".data⟩, ⟨"b.txt".data, "qq".data⟩]

/-- Concrete corpus for claim C5's counterexample: one document of 32770
tokens, the term "cd" first occurring at token index 32768, which overflows
the 16-bit `positions` field. -/
def fileBig : FileInput :=
  ⟨"big.txt".data, (List.replicate 32768 ['a', 'a', ' ']).flatten ++ "cd cd".data⟩

/-- Concrete corpus for claim C6's counterexample: the indexed term "ab1"
contains a digit, which `UltraFastTrie::insert` cannot store. -/
def engAB1 : Engine := mkEngine [⟨"x.txt".data, "ab1".data⟩]

/-- Concrete corpus for claim C6's witness. -/
def engHello : Engine := mkEngine [⟨"hello.txt".data, "hello world".data⟩]

/-- Concrete text for claim C7's counterexample: a short first line, then a
long second line. -/
def c7Text : Str := "ab".data ++ '\n' :: List.replicate 60 'c'

/-- Per-posting invariant inside the per-document `local` map after the first
`i` tokens: the posting belongs to this document, `freq` is capped at 1000,
exactly `min freq 50` positions are stored, and they are the narrowed images
of a strictly increasing list of token indices below `i`. -/
def LocP (d : Int) (i : Nat) (p : Posting) : Prop :=
  p.docID = d ∧ p.freq ≤ 1000 ∧ p.positions.length = min p.freq 50 ∧
  ∃ raw : List Nat, p.positions = raw.map toSigned16 ∧
    raw.Pairwise (· < ·) ∧ ∀ r ∈ raw, r < i

/-- Posting invariant relative to the final document table: the docID is in
range and the stored positions are the 16-bit narrowings of a strictly
increasing list of token indices of the posting's own document. -/
def PostingOK (docs : List Document) (p : Posting) : Prop :=
  0 ≤ p.docID ∧ p.docID < (docs.length : Int) ∧ p.freq ≤ 1000 ∧
  p.positions.length = min p.freq 50 ∧
  ∃ raw : List Nat, p.positions = raw.map toSigned16 ∧
    raw.Pairwise (· < ·) ∧
    ∀ r ∈ raw, r < (docAt docs p.docID).totalTokens

/-- Invariant of the inverted index against the document table: per term the
posting docIDs are strictly increasing (hence pairwise distinct) and every
posting satisfies `PostingOK`. -/
def IdxInv (idx : List (Str × List Posting)) (docs : List Document) : Prop :=
  ∀ t ps, alistLookup t idx = some ps →
    (ps.map Posting.docID).Pairwise (· < ·) ∧ ∀ p ∈ ps, PostingOK docs p

/-- The saturated posting that 1000 leading occurrences of a term produce:
`freq` capped at 1000, the first 50 token indices stored. -/
def pSat : Posting := Posting.mk 0 1000 ((List.range 50).map toSigned16)

/-- The posting for a term occurring as every one of the first `k` tokens of
its document: frequency `k`, the first `min k 50` token indices stored. -/
def pAcc (k : Nat) : Posting := Posting.mk 0 k ((List.range (min k 50)).map toSigned16)

/-- A concrete instantiation of the ranker transcendentals (both the
identity), used to witness the C1 divergence at a fully concrete input. -/
def rfId : RF := ⟨fun x => x, fun x => x⟩

/-! # Proofs -/

lemma flushToken_toList_length (buf : Str) : (flushToken buf).toList.length ≤ 1 := by
  unfold flushToken
  split_ifs <;> simp

/-- Once `n_added` has reached the cap with an empty buffer in hand the loop
emits nothing further: every branch returns the flush of the empty buffer. -/
lemma tokLoop_at_cap (text : Str) :
    (tokLoop text [] 100000).length = 0 := by
  cases text with
  | nil => simp [tokLoop, flushToken]
  | cons c rest =>
    unfold tokLoop
    split_ifs <;> simp_all [flushToken]

lemma tokLoop_length_le (text : Str) :
    ∀ buf n, n < 100000 → (tokLoop text buf n).length ≤ 100000 - n := by
  induction text with
  | nil =>
    intro buf n hn
    have := flushToken_toList_length buf
    simp only [tokLoop]
    omega
  | cons c rest ih =>
    intro buf n hn
    have hflush := flushToken_toList_length buf
    simp only [tokLoop]
    by_cases h0 : c.toNat = 0
    · rw [if_pos h0]; omega
    · rw [if_neg h0, if_neg (by omega : ¬ 100000 ≤ n)]
      by_cases ha : isAlnumA c
      · rw [if_pos ha]; exact ih _ n hn
      · rw [if_neg ha]
        cases hf : flushToken buf with
        | none => exact ih [] n hn
        | some w =>
          show (w :: tokLoop rest [] (n + 1)).length ≤ 100000 - n
          simp only [List.length_cons]
          by_cases hn1 : n + 1 < 100000
          · have := ih [] (n + 1) hn1
            omega
          · have hn1' : n + 1 = 100000 := by omega
            have hcap2 : (tokLoop rest [] (n + 1)).length = 0 := by
              rw [hn1']; exact tokLoop_at_cap rest
            omega

/-- C8: the tokenizer emits at most 100000 terms on any input byte buffer. -/
theorem C8_tokenizer_cap (text : Str) :
    (tokenize_ultrafast text).length ≤ 100000 := by
  by_cases h : (0:Nat) < 100000
  · simpa [tokenize_ultrafast] using tokLoop_length_le text [] 0 (by omega)
  · omega

lemma alistLookup_update_self {κ α : Type} [DecidableEq κ] (k : κ) (dflt : α)
    (f : α → α) (l : List (κ × α)) :
    alistLookup k (alistUpdate k dflt f l) =
      some (f ((alistLookup k l).getD dflt)) := by
  induction l with
  | nil => simp [alistLookup, alistUpdate]
  | cons kv rest ih =>
    obtain ⟨k', v⟩ := kv
    by_cases h : k' = k
    · simp [alistLookup, alistUpdate, h]
    · simp [alistLookup, alistUpdate, h, ih]

lemma alistLookup_update_other {κ α : Type} [DecidableEq κ] (k k' : κ)
    (hne : k ≠ k') (dflt : α) (f : α → α) (l : List (κ × α)) :
    alistLookup k' (alistUpdate k dflt f l) = alistLookup k' l := by
  induction l with
  | nil => simp [alistLookup, alistUpdate, hne]
  | cons kv rest ih =>
    obtain ⟨k'', v⟩ := kv
    by_cases h : k'' = k
    · subst h
      simp [alistLookup, alistUpdate, hne]
    · simp only [alistUpdate, if_neg h]
      by_cases h2 : k'' = k'
      · simp [alistLookup, h2]
      · simp [alistLookup, h2, ih]

lemma alistUpdate_keys {κ α : Type} [DecidableEq κ] (k : κ) (dflt : α)
    (f : α → α) (l : List (κ × α)) :
    (alistUpdate k dflt f l).map Prod.fst =
      if k ∈ l.map Prod.fst then l.map Prod.fst else l.map Prod.fst ++ [k] := by
  induction l with
  | nil => simp [alistUpdate]
  | cons kv rest ih =>
    obtain ⟨k', v⟩ := kv
    by_cases h : k' = k
    · simp [alistUpdate, h]
    · have : ¬ k = k' := fun hh => h hh.symm
      simp only [alistUpdate, if_neg h, List.map_cons, List.mem_cons, this,
        false_or, ih]
      by_cases h2 : k ∈ rest.map Prod.fst <;> simp [h2]

lemma alistUpdate_keys_nodup {κ α : Type} [DecidableEq κ] (k : κ) (dflt : α)
    (f : α → α) (l : List (κ × α)) (h : (l.map Prod.fst).Nodup) :
    ((alistUpdate k dflt f l).map Prod.fst).Nodup := by
  rw [alistUpdate_keys]
  by_cases hk : k ∈ l.map Prod.fst
  · simpa [hk]
  · simpa [hk, List.nodup_append] using h

lemma alistLookup_map_value {κ α β : Type} [DecidableEq κ] (k : κ) (g : α → β)
    (l : List (κ × α)) :
    alistLookup k (l.map (fun kv => (kv.1, g kv.2))) =
      (alistLookup k l).map g := by
  induction l with
  | nil => simp [alistLookup]
  | cons kv rest ih =>
    obtain ⟨k', v⟩ := kv
    by_cases h : k' = k <;> simp [alistLookup, h, ih]

lemma alistLookup_mem {κ α : Type} [DecidableEq κ] {k : κ} {v : α}
    {l : List (κ × α)} (h : alistLookup k l = some v) : (k, v) ∈ l := by
  induction l with
  | nil => simp [alistLookup] at h
  | cons kv rest ih =>
    obtain ⟨k', v'⟩ := kv
    by_cases hk : k' = k
    · subst hk
      simp only [alistLookup, eq_self_iff_true, if_true, Option.some.injEq] at h
      subst h; exact List.mem_cons_self _ _
    · simp only [alistLookup, if_neg hk] at h
      exact List.mem_cons_of_mem _ (ih h)

lemma alistLookup_isSome_of_mem {κ α : Type} [DecidableEq κ] {k : κ} {v : α}
    {l : List (κ × α)} (h : (k, v) ∈ l) : (alistLookup k l).isSome := by
  induction l with
  | nil => simp at h
  | cons kv rest ih =>
    obtain ⟨k', v'⟩ := kv
    by_cases hk : k' = k
    · simp [alistLookup, hk]
    · rcases List.mem_cons.1 h with h1 | h2
      · exact absurd (congrArg Prod.fst h1).symm hk
      · simpa [alistLookup, hk] using ih h2

lemma insertBy_perm {α : Type} (comp : α → α → Bool) (x : α) (l : List α) :
    (insertBy comp x l).Perm (x :: l) := by
  induction l with
  | nil => simp [insertBy]
  | cons y ys ih =>
    unfold insertBy
    by_cases h : comp x y
    · simp [h]
    · rw [if_neg h]
      exact (List.Perm.cons y ih).trans (List.Perm.swap x y ys)

lemma sortBy_perm {α : Type} (comp : α → α → Bool) (l : List α) :
    (sortBy comp l).Perm l := by
  induction l with
  | nil => simp [sortBy]
  | cons x xs ih =>
    exact (insertBy_perm comp x (sortBy comp xs)).trans (List.Perm.cons x ih)

lemma insertBy_chain' {α : Type} (comp : α → α → Bool)
    (hasym : ∀ a b, comp a b = true → comp b a = false) (x : α) (l : List α)
    (hl : l.Chain' (fun u v => comp v u = false)) :
    (insertBy comp x l).Chain' (fun u v => comp v u = false) := by
  induction l with
  | nil => simp [insertBy]
  | cons y ys ih =>
    unfold insertBy
    by_cases h : comp x y
    · rw [if_pos h]
      exact List.Chain'.cons (hasym x y h) hl
    · rw [if_neg h]
      have hys := hl.tail
      have hins := ih hys
      apply List.Chain'.cons'
      · exact hins
      · intro z hz
        cases ys with
        | nil =>
          simp [insertBy] at hz
          subst hz
          exact eq_false_of_ne_true h
        | cons y2 ys2 =>
          unfold insertBy at hz
          by_cases h2 : comp x y2
          · rw [if_pos h2] at hz
            simp only [List.head?_cons, Option.mem_def, Option.some.injEq] at hz
            subst hz
            exact eq_false_of_ne_true h
          · rw [if_neg h2] at hz
            simp only [List.head?_cons, Option.mem_def, Option.some.injEq] at hz
            subst hz
            exact (List.chain'_cons.1 hl).1

lemma sortBy_chain' {α : Type} (comp : α → α → Bool)
    (hasym : ∀ a b, comp a b = true → comp b a = false) (l : List α) :
    (sortBy comp l).Chain' (fun u v => comp v u = false) := by
  induction l with
  | nil => simp [sortBy]
  | cons x xs ih => exact insertBy_chain' comp hasym x (sortBy comp xs) ih


/-! ## C10: out-of-range accessors -/

lemma filenameGo_out (docs : List Document) :
    ∀ curr docID : Int, (docID < curr ∨ curr + (docs.length : Int) ≤ docID) →
      filenameGo docs curr docID = [] := by
  induction docs with
  | nil => intro curr docID _; rfl
  | cons d ds ih =>
    intro curr docID h
    have hne : ¬ curr = docID := by
      simp only [List.length_cons] at h
      push_cast at h
      omega
    simp only [filenameGo, if_neg hne]
    apply ih
    simp only [List.length_cons] at h
    push_cast at h ⊢
    omega

lemma filepathGo_out (docs : List Document) :
    ∀ curr docID : Int, (docID < curr ∨ curr + (docs.length : Int) ≤ docID) →
      filepathGo docs curr docID = [] := by
  induction docs with
  | nil => intro curr docID _; rfl
  | cons d ds ih =>
    intro curr docID h
    have hne : ¬ curr = docID := by
      simp only [List.length_cons] at h
      push_cast at h
      omega
    simp only [filepathGo, if_neg hne]
    apply ih
    simp only [List.length_cons] at h
    push_cast at h ⊢
    omega

lemma snippetGo_out (query_terms : List Str) (docs : List Document) :
    ∀ curr docID : Int, (docID < curr ∨ curr + (docs.length : Int) ≤ docID) →
      snippetGo query_terms docs curr docID = [] := by
  induction docs with
  | nil => intro curr docID _; rfl
  | cons d ds ih =>
    intro curr docID h
    have hne : ¬ curr = docID := by
      simp only [List.length_cons] at h
      push_cast at h
      omega
    simp only [snippetGo, if_neg hne]
    apply ih
    simp only [List.length_cons] at h
    push_cast at h ⊢
    omega

/-- C10: for any engine state and any docID outside `[0, N)` (negative or at
least the document count), `filename_for`, `filepath_for` and
`get_snippet_for_doc` all return the empty string. -/
theorem C10_accessors_out_of_range (e : Engine) (docID : Int)
    (h : docID < 0 ∨ (e.index.docs.length : Int) ≤ docID)
    (query_terms : List Str) :
    HyperFastSearchEngine.filename_for e docID = [] ∧
    HyperFastSearchEngine.filepath_for e docID = [] ∧
    HyperFastSearchEngine.get_snippet_for_doc e query_terms docID = [] := by
  have h' : docID < 0 ∨ (0 : Int) + (e.index.docs.length : Int) ≤ docID := by
    omega
  exact ⟨filenameGo_out _ 0 docID h', filepathGo_out _ 0 docID h',
    snippetGo_out _ _ 0 docID h'⟩

/-- Witness for C10 at a concrete one-document engine and docID 5. -/
theorem C10_accessors_witness :
    ((5 : Int) < 0 ∨ ((engHello.index.docs.length : Int) ≤ 5)) ∧
    (HyperFastSearchEngine.filename_for engHello 5 = [] ∧
     HyperFastSearchEngine.filepath_for engHello 5 = [] ∧
     HyperFastSearchEngine.get_snippet_for_doc engHello ["hello".data] 5 = []) := by
  have h : (5 : Int) < 0 ∨ ((engHello.index.docs.length : Int) ≤ 5) := by
    right; decide
  exact ⟨h, C10_accessors_out_of_range engHello 5 h ["hello".data]⟩

/-! ## C9: repeated searches with identical arguments -/

/-- C9: invoking the paginated search twice with identical arguments (the
second call on the state the first returned) yields structurally identical
result lists.  A cache hit returns the stored copy; a miss stores the computed
slice at the cache head, where the second call's scan finds it first. -/
theorem C9_search_idempotent (fns : RF) (e : Engine) (query : Str)
    (page size : Nat) :
    (HyperFastSearchEngine.search_with_ranking fns
        (HyperFastSearchEngine.search_with_ranking fns e query page size).2
        query page size).1 =
      (HyperFastSearchEngine.search_with_ranking fns e query page size).1 := by
  unfold HyperFastSearchEngine.search_with_ranking
  cases h : HyperFastSearchEngine.find_in_cache (mkCacheKey query page size)
      e.search_cache with
  | some r => simp [h]
  | none =>
    simp only [h]
    simp [HyperFastSearchEngine.find_in_cache, HyperFastSearchEngine.insert_in_cache,
      alistLookup]

/-! ## C4: eviction order of the two caches -/

/-- The common insertion step of both caches. -/
lemma trie_insert_in_cache_eq (k : Str) (v : List Str)
    (c : List (Str × List Str)) :
    UltraFastTrie.insert_in_cache k v c =
      (k, v) :: (if 1000 ≤ c.length then c.tail else c) := rfl

lemma search_insert_in_cache_eq (k : Str) (v : List RankedDoc)
    (c : List (Str × List RankedDoc)) :
    HyperFastSearchEngine.insert_in_cache k v c =
      (k, v) :: (if 1000 ≤ c.length then c.tail else c) := rfl

/-- Shape of a sequence of insertions through the evict-head-then-push step,
for any value type: at most 1000 keys stack up in reverse order; beyond that,
each insertion evicts the previous head, so the state is the newest entry on
top of the reversed first 999. -/
lemma evictFold_shape {α : Type} (v : Str → α) (ks : List Str) :
    ks.foldl (fun c k => (k, v k) :: (if 1000 ≤ c.length then c.tail else c)) [] =
      if ks.length ≤ 1000 then (ks.map (fun k => (k, v k))).reverse
      else (ks.getLastD [], v (ks.getLastD [])) ::
        ((ks.take 999).map (fun k => (k, v k))).reverse := by
  induction ks using List.reverseRecOn with
  | nil => simp
  | append_singleton ks' k ih =>
    rw [List.foldl_append, List.foldl_cons, List.foldl_nil, ih]
    by_cases h1 : ks'.length ≤ 999
    · rw [if_pos (show ks'.length ≤ 1000 by omega)]
      rw [if_neg (show ¬ 1000 ≤ ((ks'.map (fun k => (k, v k))).reverse).length by
        simp only [List.length_reverse, List.length_map]; omega)]
      rw [if_pos (show (ks' ++ [k]).length ≤ 1000 by
        simp only [List.length_append, List.length_cons, List.length_nil]; omega)]
      simp
    · by_cases h2 : ks'.length = 1000
      · rw [if_pos (show ks'.length ≤ 1000 by omega)]
        have hlen : ((ks'.map (fun k => (k, v k))).reverse).length = 1000 := by
          simpa using h2
        rw [if_pos (le_of_eq hlen.symm)]
        rw [if_neg (show ¬ (ks' ++ [k]).length ≤ 1000 by
          simp only [List.length_append, List.length_cons, List.length_nil]; omega)]
        have htail : ((ks'.map (fun k => (k, v k))).reverse).tail =
            ((ks'.take 999).map (fun k => (k, v k))).reverse := by
          rw [List.tail_reverse_eq_reverse_dropLast, List.dropLast_eq_take,
            List.length_map, h2]
          norm_num
        rw [htail, List.take_append_of_le_length (show 999 ≤ ks'.length by omega)]
        simp
      · rw [if_neg (show ¬ ks'.length ≤ 1000 by omega)]
        have hlen : ((ks'.getLastD [], v (ks'.getLastD [])) ::
            ((ks'.take 999).map (fun k => (k, v k))).reverse).length = 1000 := by
          simp only [List.length_cons, List.length_reverse, List.length_map,
            List.length_take]
          omega
        rw [if_pos (le_of_eq hlen.symm), List.tail_cons]
        rw [if_neg (show ¬ (ks' ++ [k]).length ≤ 1000 by
          simp only [List.length_append, List.length_cons, List.length_nil]; omega)]
        rw [List.take_append_of_le_length (show 999 ≤ ks'.length by omega)]
        simp

lemma trieCacheFold_eq (ks : List Str) (v : Str → List Str) :
    trieCacheFold ks v =
      ks.foldl (fun c k => (k, v k) :: (if 1000 ≤ c.length then c.tail else c)) [] :=
  rfl

lemma searchCacheFold_eq (ks : List Str) (v : Str → List RankedDoc) :
    searchCacheFold ks v =
      ks.foldl (fun c k => (k, v k) :: (if 1000 ≤ c.length then c.tail else c)) [] :=
  rfl

lemma alistLookup_cons {κ α : Type} [DecidableEq κ] (k k' : κ) (v : α)
    (rest : List (κ × α)) :
    alistLookup k ((k', v) :: rest) =
      if k' = k then some v else alistLookup k rest := rfl

lemma alistLookup_pairs {α : Type} (v : Str → α) (l : List Str) (k : Str) :
    alistLookup k (l.map (fun k' => (k', v k'))) =
      if k ∈ l then some (v k) else none := by
  induction l with
  | nil => simp [alistLookup]
  | cons k' rest ih =>
    by_cases h : k' = k
    · subst h
      simp [alistLookup]
    · have : ¬ k = k' := fun hh => h hh.symm
      simp [alistLookup, h, ih, this]

/-- C4 amended: both caches evict on insertion when 1000 entries are held, but
the entry removed is the MOST RECENTLY inserted one (the list head), not the
oldest.  After more than 1000 insertions of distinct keys into an empty cache
the state is exactly the newest entry followed by the first 999 entries in
reverse insertion order; in particular the oldest entry is never evicted and
remains retrievable. -/
theorem C4_eviction_amended (ks : List Str) (v1 : Str → List Str)
    (v2 : Str → List RankedDoc) (h : 1000 < ks.length) :
    trieCacheFold ks v1 = (ks.getLastD [], v1 (ks.getLastD [])) ::
        ((ks.take 999).map (fun k => (k, v1 k))).reverse ∧
    searchCacheFold ks v2 = (ks.getLastD [], v2 (ks.getLastD [])) ::
        ((ks.take 999).map (fun k => (k, v2 k))).reverse ∧
    ∀ k0, ks.head? = some k0 →
      (UltraFastTrie.find_in_cache k0 (trieCacheFold ks v1)).isSome ∧
      (HyperFastSearchEngine.find_in_cache k0 (searchCacheFold ks v2)).isSome := by
  have e1 : trieCacheFold ks v1 = (ks.getLastD [], v1 (ks.getLastD [])) ::
      ((ks.take 999).map (fun k => (k, v1 k))).reverse := by
    rw [trieCacheFold_eq, evictFold_shape, if_neg (by omega)]
  have e2 : searchCacheFold ks v2 = (ks.getLastD [], v2 (ks.getLastD [])) ::
      ((ks.take 999).map (fun k => (k, v2 k))).reverse := by
    rw [searchCacheFold_eq, evictFold_shape, if_neg (by omega)]
  refine ⟨e1, e2, ?_⟩
  intro k0 hk0
  have hmem : k0 ∈ ks.take 999 := by
    cases ks with
    | nil => simp at hk0
    | cons a t =>
      simp only [List.head?_cons, Option.some.injEq] at hk0
      subst hk0
      simp [List.take_cons]
  have lookup_aux : ∀ {α : Type} (v : Str → α) (last : Str),
      (alistLookup k0 ((last, v last) ::
        ((ks.take 999).map (fun k => (k, v k))).reverse)).isSome := by
    intro α v last
    simp only [alistLookup]
    by_cases hl : last = k0
    · simp [hl]
    · rw [if_neg hl, ← List.map_reverse, alistLookup_pairs,
        if_pos (List.mem_reverse.2 hmem)]
      simp
  constructor
  · rw [e1]
    exact lookup_aux v1 _
  · rw [e2]
    exact lookup_aux v2 _

lemma c4Keys_length : c4Keys.length = 1001 := by
  rw [c4Keys, List.length_map, List.length_range]

lemma c4Keys_take : c4Keys.take 999 =
    (List.range 999).map (fun i => List.replicate (i + 1) 'a') := by
  rw [c4Keys, ← List.map_take, List.take_range]
  norm_num

lemma c4Keys_last : c4Keys.getLastD [] = List.replicate 1001 'a' := by
  rw [c4Keys, show (1001 : Nat) = 1000 + 1 from rfl, List.range_succ,
    List.map_append, List.map_singleton, List.getLastD_concat]

/-- C4 counterexample: insert 1001 distinct keys (`"a"`, `"aa"`, ...,
`'a'*1001`) into each cache from empty.  Contrary to the claim, the oldest
key `"a"` is still retrievable afterwards, while `'a'*1000` — inserted AFTER
the oldest — is not: the caches evict the newest entry, not the oldest. -/
theorem C4_eviction_counterexample :
    UltraFastTrie.find_in_cache (List.replicate 1 'a')
        (trieCacheFold c4Keys (fun _ => [])) = some [] ∧
    UltraFastTrie.find_in_cache (List.replicate 1000 'a')
        (trieCacheFold c4Keys (fun _ => [])) = none ∧
    HyperFastSearchEngine.find_in_cache (List.replicate 1000 'a')
        (searchCacheFold c4Keys (fun _ => [])) = none := by
  have hlen : 1000 < c4Keys.length := by rw [c4Keys_length]; omega
  have e1 := (C4_eviction_amended c4Keys (fun _ => []) (fun _ => []) hlen).1
  have e2 := (C4_eviction_amended c4Keys (fun _ => []) (fun _ => []) hlen).2.1
  have hne1001 : ∀ n, n ≠ 1001 → List.replicate 1001 'a' ≠ List.replicate n 'a' := by
    intro n hn hEq
    have := congrArg List.length hEq
    rw [List.length_replicate, List.length_replicate] at this
    omega
  have hnotmem : (List.replicate 1000 'a') ∉ c4Keys.take 999 := by
    rw [c4Keys_take]
    intro hmem
    obtain ⟨i, hi, hfi⟩ := List.mem_map.1 hmem
    have := congrArg List.length hfi
    rw [List.length_replicate, List.length_replicate] at this
    have := List.mem_range.1 hi
    omega
  have hmem1 : (List.replicate 1 'a') ∈ c4Keys.take 999 := by
    rw [c4Keys_take]
    exact List.mem_map.2 ⟨0, List.mem_range.2 (by omega), rfl⟩
  refine ⟨?_, ?_, ?_⟩
  · rw [show UltraFastTrie.find_in_cache (List.replicate 1 'a')
          (trieCacheFold c4Keys (fun _ => [])) =
        alistLookup (List.replicate 1 'a') (trieCacheFold c4Keys (fun _ => []))
        from rfl, e1, c4Keys_last, alistLookup_cons]
    rw [if_neg (hne1001 1 (by omega)), ← List.map_reverse, alistLookup_pairs,
      if_pos (List.mem_reverse.2 hmem1)]
  · rw [show UltraFastTrie.find_in_cache (List.replicate 1000 'a')
          (trieCacheFold c4Keys (fun _ => [])) =
        alistLookup (List.replicate 1000 'a') (trieCacheFold c4Keys (fun _ => []))
        from rfl, e1, c4Keys_last, alistLookup_cons]
    rw [if_neg (hne1001 1000 (by omega)), ← List.map_reverse, alistLookup_pairs,
      if_neg (fun h => hnotmem (List.mem_reverse.1 h))]
  · rw [show HyperFastSearchEngine.find_in_cache (List.replicate 1000 'a')
          (searchCacheFold c4Keys (fun _ => [])) =
        alistLookup (List.replicate 1000 'a') (searchCacheFold c4Keys (fun _ => []))
        from rfl, e2, c4Keys_last, alistLookup_cons]
    rw [if_neg (hne1001 1000 (by omega)), ← List.map_reverse, alistLookup_pairs,
      if_neg (fun h => hnotmem (List.mem_reverse.1 h))]

/-- Witness for the amended C4 at the concrete key sequence `c4Keys`. -/
theorem C4_eviction_witness :
    1000 < c4Keys.length ∧
    (trieCacheFold c4Keys (fun _ => []) =
        (c4Keys.getLastD [], ([] : List Str)) ::
          ((c4Keys.take 999).map (fun k => (k, ([] : List Str)))).reverse ∧
      searchCacheFold c4Keys (fun _ => []) =
        (c4Keys.getLastD [], ([] : List RankedDoc)) ::
          ((c4Keys.take 999).map (fun k => (k, ([] : List RankedDoc)))).reverse ∧
      ∀ k0, c4Keys.head? = some k0 →
        (UltraFastTrie.find_in_cache k0 (trieCacheFold c4Keys (fun _ => []))).isSome ∧
        (HyperFastSearchEngine.find_in_cache k0
          (searchCacheFold c4Keys (fun _ => []))).isSome) := by
  have hlen : 1000 < c4Keys.length := by rw [c4Keys_length]; omega
  exact ⟨hlen, C4_eviction_amended c4Keys (fun _ => []) (fun _ => []) hlen⟩

/-! ## C3: pagination -/

/-- The pagination loop produces exactly the clamped slice
`[(page-1)*size, page*size)`. -/
lemma sliceResults_eq_drop_take (l : List RankedDoc) (page size : Nat) :
    sliceResults l page size = (l.drop ((page - 1) * size)).take size := by
  unfold sliceResults
  by_cases h : (page - 1) * size ≤ l.length
  · apply List.take_eq_take.2
    simp only [List.length_drop]
    omega
  · have hdrop : l.drop ((page - 1) * size) = [] :=
      List.drop_eq_nil_iff.2 (by omega)
    rw [hdrop]
    simp
    omega

lemma rankedAll_of_inactive (fns : RF) (e : Engine) (query : Str)
    (h : searchActive e query = false) : rankedAll fns e query = [] := by
  unfold rankedAll gatheredResults gatherResults finalScores
  rw [h]
  simp [sortRanked, sortBy]

/-- C3: under a consistent cache (which every reachable engine state has),
the paginated search returns exactly the slice `[(page-1)*size, page*size)`
of the full ranked list, clamped to its length; a page past the end yields
the empty list; and `get_total_results_count` returns the full post-filter
count whenever that count fits in an `int`. -/
theorem C3_pagination (fns : RF) (e : Engine) (query : Str) (page size : Nat)
    (hcache : CacheOK fns e) (hpage : 1 ≤ page) (hsize : 1 ≤ size) :
    (HyperFastSearchEngine.search_with_ranking fns e query page size).1 =
        ((rankedAll fns e query).drop ((page - 1) * size)).take size ∧
    ((rankedAll fns e query).length ≤ (page - 1) * size →
      (HyperFastSearchEngine.search_with_ranking fns e query page size).1 = []) ∧
    ((rankedAll fns e query).length ≤ 2147483647 →
      (HyperFastSearchEngine.get_total_results_count fns e query).1 =
        (rankedAll fns e query).length) := by
  have hmain : ∀ p s : Nat,
      (HyperFastSearchEngine.search_with_ranking fns e query p s).1 =
        ((rankedAll fns e query).drop ((p - 1) * s)).take s := by
    intro p s
    unfold HyperFastSearchEngine.search_with_ranking
    dsimp only
    split
    · rename_i r heq
      show r = _
      rw [hcache query p s r heq]
      exact sliceResults_eq_drop_take _ p s
    · exact sliceResults_eq_drop_take _ p s
  refine ⟨hmain page size, ?_, ?_⟩
  · intro hpast
    rw [hmain page size, List.drop_eq_nil_iff.2 (by omega)]
    simp
  · intro hfits
    unfold HyperFastSearchEngine.get_total_results_count
    by_cases hN : e.Ndocs = 0
    · have hempty : rankedAll fns e query = [] := by
        apply rankedAll_of_inactive
        simp [searchActive, hN]
      rw [if_pos hN, hempty]
      simp
    · rw [if_neg hN]
      show (HyperFastSearchEngine.search_with_ranking fns e query 1 2147483647).1.length = _
      rw [hmain 1 2147483647]
      simp only [Nat.sub_self, Nat.zero_mul, List.drop_zero]
      rw [List.take_of_length_le hfits]

/-- Witness for C3 at a concrete built engine with an empty (hence
consistent) cache, page 2, page size 3. -/
theorem C3_pagination_witness :
    CacheOK ⟨id, id⟩ engHello ∧ 1 ≤ 2 ∧ 1 ≤ 3 ∧
    ((HyperFastSearchEngine.search_with_ranking ⟨id, id⟩ engHello
          ("hello".data) 2 3).1 =
        ((rankedAll ⟨id, id⟩ engHello ("hello".data)).drop ((2 - 1) * 3)).take 3 ∧
      ((rankedAll ⟨id, id⟩ engHello ("hello".data)).length ≤ (2 - 1) * 3 →
        (HyperFastSearchEngine.search_with_ranking ⟨id, id⟩ engHello
          ("hello".data) 2 3).1 = []) ∧
      ((rankedAll ⟨id, id⟩ engHello ("hello".data)).length ≤ 2147483647 →
        (HyperFastSearchEngine.get_total_results_count ⟨id, id⟩ engHello
          ("hello".data)).1 =
          (rankedAll ⟨id, id⟩ engHello ("hello".data)).length)) := by
  have hcache : CacheOK ⟨id, id⟩ engHello := by
    intro q p s r h
    simp [mkEngine, engHello, alistLookup] at h
  exact ⟨hcache, by omega, by omega,
    C3_pagination ⟨id, id⟩ engHello ("hello".data) 2 3 hcache (by omega) (by omega)⟩

/-! ## C2: descending sort and the 1e-6 filter -/

lemma rdLtB_asymm (a b : RankedDoc) (h : rdLtB a b = true) : rdLtB b a = false := by
  have habs : |b.score - a.score| = |a.score - b.score| := abs_sub_comm _ _
  unfold rdLtB at h ⊢
  rw [habs]
  by_cases h1 : a.exactPhraseMatch = b.exactPhraseMatch
  · rw [if_neg (by simp [h1])] at h
    rw [if_neg (by simp [h1])]
    by_cases h2 : a.titleBoost = b.titleBoost
    · rw [if_neg (by simp [h2])] at h
      rw [if_neg (by simp [h2])]
      by_cases h3 : (1 : ℚ) / 10000 < |a.score - b.score|
      · rw [if_pos h3] at h ⊢
        simp only [decide_eq_true_eq] at h
        simp only [decide_eq_false_iff_not]
        linarith
      · rw [if_neg h3] at h ⊢
        simp only [decide_eq_true_eq] at h
        simp only [decide_eq_false_iff_not]
        omega
    · rw [if_pos h2] at h
      rw [if_pos (show b.titleBoost ≠ a.titleBoost from fun hh => h2 hh.symm)]
      simp only [decide_eq_true_eq] at h
      simp only [decide_eq_false_iff_not]
      linarith
  · rw [if_pos h1] at h
    rw [if_pos (show b.exactPhraseMatch ≠ a.exactPhraseMatch from
      fun hh => h1 hh.symm)]
    simp only [Bool.and_eq_true, Bool.not_eq_true'] at h
    simp [h.1, h.2]

lemma accPosting_scores_nodup (fns : RF) (tokSrc : Posting → Nat)
    (epd : List Int) (hasT : Int → Bool) (bonus : Int → ℚ) (idfv : ℚ)
    (st : ScoreSt) (p : Posting) (h : (st.scores.map Prod.fst).Nodup) :
    (((accPosting fns tokSrc epd hasT bonus idfv st p).scores.map Prod.fst)).Nodup := by
  unfold accPosting
  exact alistUpdate_keys_nodup _ _ _ _ h

lemma postings_fold_scores_nodup (fns : RF) (tokSrc : Posting → Nat)
    (epd : List Int) (hasT : Int → Bool) (bonus : Int → ℚ) (idfv : ℚ)
    (ps : List Posting) :
    ∀ st : ScoreSt, (st.scores.map Prod.fst).Nodup →
      (((ps.foldl (fun st p => accPosting fns tokSrc epd hasT bonus idfv st p)
        st).scores.map Prod.fst)).Nodup := by
  induction ps with
  | nil => intro st h; exact h
  | cons p rest ih =>
    intro st h
    exact ih _ (accPosting_scores_nodup fns tokSrc epd hasT bonus idfv st p h)

lemma scoreQuery_scores_nodup (fns : RF) (e : Engine) (tokSrc : Posting → Nat)
    (qtokens : List Str) (epd : List Int) (hasT : Int → Bool)
    (bonus : Int → ℚ) :
    (((scoreQuery fns e tokSrc qtokens epd hasT bonus).scores.map Prod.fst)).Nodup := by
  unfold scoreQuery
  have : ∀ (ts : List Str) (st : ScoreSt), (st.scores.map Prod.fst).Nodup →
      ((ts.foldl (fun st term =>
          match alistLookup term e.index.idx with
          | none => st
          | some plist =>
            plist.foldl (fun st p =>
              accPosting fns tokSrc epd hasT bonus
                (HyperFastSearchEngine.idf fns e term) st p) st)
        st).scores.map Prod.fst).Nodup := by
    intro ts
    induction ts with
    | nil => intro st h; exact h
    | cons t rest ih =>
      intro st h
      apply ih
      cases hl : alistLookup t e.index.idx with
      | none => simpa [hl] using h
      | some plist =>
        simp only [hl]
        exact postings_fold_scores_nodup fns tokSrc epd hasT bonus _ plist st h
  exact this qtokens ⟨[], []⟩ (by simp)

lemma normalizeScores_keys (lenSrc : Int → Nat) (hasT : Int → Bool)
    (bonus : Int → ℚ) (scores : List (Int × ℚ)) :
    (normalizeScores lenSrc hasT bonus scores).map Prod.fst =
      scores.map Prod.fst := by
  unfold normalizeScores
  rw [List.map_map]
  rfl

lemma finalScores_keys_nodup (fns : RF) (e : Engine) (query : Str) :
    ((finalScores fns e query).map Prod.fst).Nodup := by
  unfold finalScores
  split_ifs
  · rw [normalizeScores_keys]
    exact scoreQuery_scores_nodup fns e _ _ _ _ _
  · simp

lemma alistLookup_of_mem_nodup {κ α : Type} [DecidableEq κ] {k : κ} {v : α}
    {l : List (κ × α)} (hmem : (k, v) ∈ l) (hn : (l.map Prod.fst).Nodup) :
    alistLookup k l = some v := by
  induction l with
  | nil => simp at hmem
  | cons kv rest ih =>
    obtain ⟨k', v'⟩ := kv
    have hn' : (k' :: rest.map Prod.fst).Nodup := by simpa using hn
    rcases List.mem_cons.1 hmem with h1 | h2
    · injection h1 with h1a h1b
      simp [alistLookup, h1a.symm, h1b]
    · have hk' : k' ≠ k := by
        intro hEq
        subst hEq
        exact (List.nodup_cons.1 hn').1 (List.mem_map.2 ⟨(k', v), h2, rfl⟩)
      rw [alistLookup_cons, if_neg hk']
      exact ih h2 (by simpa using (List.nodup_cons.1 hn').2)

/-- C2: for every query on a fixed engine state (and any values of the float
transcendentals), the full ranked list is a descending chain under
`RankedDoc::operator<` — exact-phrase flag, then title boost, then score with
the 1e-4 tie tolerance falling through to total occurrences — and it contains
exactly the scored documents whose final (normalized) score exceeds 1e-6,
each with its final score. -/
theorem C2_ranked_filter_sorted (fns : RF) (e : Engine) (query : Str) :
    (rankedAll fns e query).Chain' (fun a b => rdLtB a b = false) ∧
    ∀ (d : Int) (sc : ℚ),
      (∃ rd ∈ rankedAll fns e query, rd.docID = d ∧ rd.score = sc) ↔
        (alistLookup d (finalScores fns e query) = some sc ∧
          (1 : ℚ) / 1000000 < sc) := by
  constructor
  · have := sortBy_chain' (fun a b => rdLtB b a)
      (fun a b h => rdLtB_asymm b a h) (gatheredResults fns e query)
    exact this
  · intro d sc
    have hperm : (rankedAll fns e query).Perm (gatheredResults fns e query) :=
      sortBy_perm _ _
    constructor
    · rintro ⟨rd, hrd, hdoc, hsc⟩
      have hrd' : rd ∈ gatheredResults fns e query := hperm.mem_iff.1 hrd
      unfold gatheredResults gatherResults at hrd'
      obtain ⟨kv, hkv, hmk⟩ := List.mem_map.1 hrd'
      have hkv2 := List.mem_filter.1 hkv
      have hdoc' : kv.1 = d := by rw [← hdoc, ← hmk]
      have hsc' : kv.2 = sc := by rw [← hsc, ← hmk]
      subst hdoc'
      subst hsc'
      refine ⟨alistLookup_of_mem_nodup hkv2.1 (finalScores_keys_nodup fns e query), ?_⟩
      have := hkv2.2
      simp only [Bool.not_eq_true', decide_eq_false_iff_not, not_le] at this
      exact this
    · rintro ⟨hlook, hgt⟩
      have hmem : (d, sc) ∈ finalScores fns e query := alistLookup_mem hlook
      have hfilter : (d, sc) ∈ (finalScores fns e query).filter
          (fun kv => !decide (kv.2 ≤ 1 / 1000000)) := by
        refine List.mem_filter.2 ⟨hmem, ?_⟩
        simp only [Bool.not_eq_true', decide_eq_false_iff_not, not_le]
        exact hgt
      refine ⟨_, hperm.mem_iff.2 (show _ ∈ gatheredResults fns e query by
        unfold gatheredResults gatherResults
        exact List.mem_map.2 ⟨(d, sc), hfilter, rfl⟩), rfl, rfl⟩

/-! ## C6: vocabulary terms in the trie -/

lemma trieChild_setChild (t : TrieN) (i : Fin 26) (x : TrieN) :
    trieChild (setChild t i x) i = x := by
  cases t <;> simp [setChild, trieChild]

lemma trieChild_setChild_ne (t : TrieN) (i j : Fin 26) (hne : j ≠ i)
    (x : TrieN) : trieChild (setChild t i x) j = trieChild t j := by
  cases t <;> simp [setChild, trieChild, hne]

lemma trieChild_setEnd (t : TrieN) (i : Fin 26) :
    trieChild (setEnd t) i = trieChild t i := by
  cases t <;> simp [setEnd, trieChild]

lemma trieIsEnd_setChild (t : TrieN) (i : Fin 26) (x : TrieN) :
    trieIsEnd (setChild t i x) = trieIsEnd t := by
  cases t <;> simp [setChild, trieIsEnd]

lemma setChild_ne_nil (t : TrieN) (i : Fin 26) (x : TrieN) :
    setChild t i x ≠ TrieN.nil := by
  cases t <;> simp [setChild]

lemma setEnd_ne_nil (t : TrieN) : setEnd t ≠ TrieN.nil := by
  cases t <;> simp [setEnd]

lemma insertGo_ne_nil (t : TrieN) (w : Str) (h : t ≠ TrieN.nil) :
    insertGo t w ≠ TrieN.nil := by
  cases w with
  | nil => exact setEnd_ne_nil t
  | cons c rest =>
    unfold insertGo
    cases hc : charIdx c with
    | none => exact h
    | some i => exact setChild_ne_nil t i _

lemma walk_insertGo_self : ∀ (w : Str), (∀ c ∈ w, (charIdx c).isSome) →
    ∀ t : TrieN, ∃ n, trieWalk (insertGo t w) w = some n ∧ trieIsEnd n = true := by
  intro w
  induction w with
  | nil =>
    intro _ t
    exact ⟨setEnd t, rfl, by cases t <;> simp [setEnd, trieIsEnd]⟩
  | cons c rest ih =>
    intro hw t
    obtain ⟨i, hi⟩ := Option.isSome_iff_exists.1 (hw c (List.mem_cons_self c rest))
    have hrest : ∀ c' ∈ rest, (charIdx c').isSome :=
      fun c' hc' => hw c' (List.mem_cons_of_mem c hc')
    obtain ⟨n, hwalk, hend⟩ :=
      ih hrest (match trieChild t i with | .nil => trieEmpty | x => x)
    refine ⟨n, ?_, hend⟩
    have hne : insertGo (match trieChild t i with | .nil => trieEmpty | x => x)
        rest ≠ TrieN.nil := by
      apply insertGo_ne_nil
      cases h : trieChild t i <;> simp [trieEmpty]
    simp only [insertGo, hi, trieWalk]
    rw [trieChild_setChild]
    cases hx : insertGo (match trieChild t i with | .nil => trieEmpty | x => x)
        rest with
    | nil => exact absurd hx hne
    | node e ch =>
      show trieWalk (TrieN.node e ch) rest = some n
      rw [hx] at hwalk
      exact hwalk

lemma walk_insertGo_preserve : ∀ (w : Str) (t n : TrieN),
    trieWalk t w = some n → trieIsEnd n = true → ∀ w' : Str,
    ∃ n', trieWalk (insertGo t w') w = some n' ∧ trieIsEnd n' = true := by
  intro w
  induction w with
  | nil =>
    intro t n hwalk hend w'
    have ht : t = n := by
      simpa [trieWalk] using hwalk
    subst ht
    cases w' with
    | nil =>
      refine ⟨setEnd t, rfl, ?_⟩
      cases t <;> simp [setEnd, trieIsEnd]
    | cons c' rest' =>
      simp only [insertGo]
      cases hc : charIdx c' with
      | none => exact ⟨t, rfl, hend⟩
      | some i =>
        refine ⟨setChild t i _, rfl, ?_⟩
        rw [trieIsEnd_setChild]
        exact hend
  | cons c rest ih =>
    intro t n hwalk hend w'
    obtain ⟨i, hi⟩ : ∃ i, charIdx c = some i := by
      cases hc : charIdx c with
      | none => simp [trieWalk, hc] at hwalk
      | some i => exact ⟨i, rfl⟩
    simp only [trieWalk, hi] at hwalk
    obtain ⟨e0, cs0, hchild⟩ : ∃ e0 cs0, trieChild t i = TrieN.node e0 cs0 := by
      cases hc : trieChild t i with
      | nil => simp [hc] at hwalk
      | node e cs => exact ⟨e, cs, rfl⟩
    rw [hchild] at hwalk
    have hchildwalk : trieWalk (TrieN.node e0 cs0) rest = some n := hwalk
    cases w' with
    | nil =>
      refine ⟨n, ?_, hend⟩
      simp only [insertGo, trieWalk, hi, trieChild_setEnd, hchild]
      exact hchildwalk
    | cons c' rest' =>
      cases hc' : charIdx c' with
      | none =>
        refine ⟨n, ?_, hend⟩
        simp only [insertGo, hc', trieWalk, hi, hchild]
        exact hchildwalk
      | some i' =>
        by_cases hii : i' = i
        · subst hii
          have hmat : (match trieChild t i' with | .nil => trieEmpty | x => x)
              = TrieN.node e0 cs0 := by
            rw [hchild]
          obtain ⟨n', hw', he'⟩ :=
            ih (TrieN.node e0 cs0) n hchildwalk hend rest'
          refine ⟨n', ?_, he'⟩
          simp only [insertGo, hc', trieWalk, hi, hmat]
          rw [trieChild_setChild]
          have hne : insertGo (TrieN.node e0 cs0) rest' ≠ TrieN.nil :=
            insertGo_ne_nil _ rest' (by simp)
          cases hx : insertGo (TrieN.node e0 cs0) rest' with
          | nil => exact absurd hx hne
          | node e2 ch2 =>
            show trieWalk (TrieN.node e2 ch2) rest = some n'
            rw [hx] at hw'
            exact hw'
        · refine ⟨n, ?_, hend⟩
          simp only [insertGo, hc', trieWalk, hi]
          rw [trieChild_setChild_ne t i' i (fun h => hii h.symm), hchild]
          exact hchildwalk

lemma fold_insert_preserve (ws : List Str) :
    ∀ (t : TrieN) (w : Str) (n : TrieN), trieWalk t w = some n →
      trieIsEnd n = true →
      ∃ n', trieWalk (ws.foldl UltraFastTrie.insert t) w = some n' ∧
        trieIsEnd n' = true := by
  induction ws with
  | nil => intro t w n h1 h2; exact ⟨n, h1, h2⟩
  | cons w0 rest ih =>
    intro t w n h1 h2
    rw [List.foldl_cons]
    unfold UltraFastTrie.insert
    split_ifs with hg
    · exact ih t w n h1 h2
    · obtain ⟨n', h1', h2'⟩ := walk_insertGo_preserve w t n h1 h2 w0
      exact ih _ w n' h1' h2'

lemma fold_insert_mem (ws : List Str) :
    ∀ (t : TrieN) (w : Str), w ∈ ws → (∀ c ∈ w, (charIdx c).isSome) →
      w ≠ [] → w.length ≤ 25 →
      ∃ n, trieWalk (ws.foldl UltraFastTrie.insert t) w = some n ∧
        trieIsEnd n = true := by
  induction ws with
  | nil => intro t w h; simp at h
  | cons w0 rest ih =>
    intro t w hmem hchars hne hlen
    rcases List.mem_cons.1 hmem with h1 | h2
    · subst h1
      rw [List.foldl_cons]
      have hins : UltraFastTrie.insert t w = insertGo t w := by
        unfold UltraFastTrie.insert
        rw [if_neg]
        simp only [not_or, not_lt]
        exact ⟨by simpa [List.isEmpty_iff] using hne, hlen⟩
      rw [hins]
      obtain ⟨n, h1, h2⟩ := walk_insertGo_self w hchars t
      exact fold_insert_preserve rest _ w n h1 h2
    · rw [List.foldl_cons]
      exact ih _ w h2 hchars hne hlen

lemma bfsGo_acc_mono (limit : Nat) :
    ∀ (fuel : Nat) (q : List (TrieN × Str)) (acc : List Str) (x : Str),
      x ∈ acc → x ∈ bfsGo limit fuel q acc := by
  intro fuel
  induction fuel with
  | zero => intro q acc x hx; exact hx
  | succ f ih =>
    intro q acc x hx
    cases q with
    | nil => exact hx
    | cons e rest =>
      obtain ⟨t, s⟩ := e
      unfold bfsGo
      dsimp only
      split_ifs <;>
        first
          | exact hx
          | exact ih _ _ x (List.mem_append_left _ hx)
          | exact ih _ _ x hx

/-- The first BFS iteration from the walked node emits the word itself when
that node is flagged end-of-word and the limit is positive. -/
lemma starts_with_self_mem (t : TrieN) (pfx : Str) (limit : Nat)
    (hl : 1 ≤ limit) (n : TrieN) (hwalk : trieWalk t pfx = some n)
    (hend : trieIsEnd n = true) (hne : pfx ≠ []) :
    pfx ∈ (UltraFastTrie.starts_with t [] pfx limit).1 := by
  unfold UltraFastTrie.starts_with
  dsimp only
  have hfind : UltraFastTrie.find_in_cache
      (pfx ++ '|' :: (Nat.repr limit).data) ([] : List (Str × List Str)) = none := rfl
  simp only [hfind]
  rw [if_neg (by simpa [List.isEmpty_iff] using hne)]
  simp only [hwalk]
  show pfx ∈ bfsGo limit (sizeT n).succ [(n, pfx)] []
  unfold bfsGo
  dsimp only
  rw [if_neg (show ¬ limit ≤ List.length [] by
    simp only [List.length_nil, Nat.le_zero]; omega), hend]
  simp only [if_true]
  apply bfsGo_acc_mono
  simp

lemma locFold_keys (docId : Int) :
    ∀ (ts : List Str) (i : Nat) (m : List (Str × Posting)) (k : Str),
      k ∈ (locFold docId ts i m).map Prod.fst →
      k ∈ m.map Prod.fst ∨ k ∈ ts := by
  intro ts
  induction ts with
  | nil => intro i m k h; exact Or.inl h
  | cons t rest ih =>
    intro i m k h
    rcases ih (i + 1) (alistUpdate t (Posting.mk docId 0 []) (postingBump i) m)
        k h with h1 | h2
    · rw [alistUpdate_keys] at h1
      split_ifs at h1 with hmem
      · exact Or.inl h1
      · rcases List.mem_append.1 h1 with ha | hb
        · exact Or.inl ha
        · simp only [List.mem_singleton] at hb
          subst hb
          exact Or.inr (List.mem_cons_self _ _)
    · exact Or.inr (List.mem_cons_of_mem _ h2)

lemma addLocal_keys :
    ∀ (loc : List (Str × Posting)) (idx : List (Str × List Posting)) (k : Str),
      k ∈ (addLocal idx loc).map Prod.fst →
      k ∈ idx.map Prod.fst ∨ k ∈ loc.map Prod.fst := by
  intro loc
  induction loc with
  | nil => intro idx k h; exact Or.inl h
  | cons kv rest ih =>
    intro idx k h
    unfold addLocal at h
    rw [List.foldl_cons] at h
    rcases ih (alistUpdate kv.1 [] (fun ps => ps ++ [kv.2]) idx) k h with h1 | h2
    · rw [alistUpdate_keys] at h1
      split_ifs at h1 with hmem
      · exact Or.inl h1
      · rcases List.mem_append.1 h1 with ha | hb
        · exact Or.inl ha
        · simp only [List.mem_singleton] at hb
          subst hb
          refine Or.inr ?_
          rw [List.map_cons]
          exact List.mem_cons_self _ _
    · exact Or.inr (List.mem_cons_of_mem _ h2)

lemma uwFold_mem_old (ts : List Str) :
    ∀ (uw : List Str) (x : Str), x ∈ uw → x ∈ ts.foldl uwStep uw := by
  induction ts with
  | nil => intro uw x h; exact h
  | cons t rest ih =>
    intro uw x h
    rw [List.foldl_cons]
    apply ih
    unfold uwStep
    split_ifs <;> simp [h]

lemma uwFold_mem_new (ts : List Str) :
    ∀ (uw : List Str) (x : Str), x ∈ ts → x ∈ ts.foldl uwStep uw := by
  induction ts with
  | nil => intro uw x h; simp at h
  | cons t rest ih =>
    intro uw x h
    rw [List.foldl_cons]
    rcases List.mem_cons.1 h with h1 | h2
    · subst h1
      apply uwFold_mem_old
      unfold uwStep
      split_ifs with hmem
      · exact hmem
      · simp
    · exact ih _ x h2

lemma processFile_idx_sub_uw (st : BuildSt) (f : FileInput)
    (h : ∀ k, k ∈ st.idx.map Prod.fst → k ∈ st.uw) :
    ∀ k, k ∈ (processFile st f).idx.map Prod.fst → k ∈ (processFile st f).uw := by
  intro k hk
  have hk2 : k ∈ (addLocal st.idx
      (locFold st.nextId (tokenize_ultrafast f.content) 0 [])).map Prod.fst := hk
  show k ∈ (tokenize_ultrafast f.content).foldl uwStep st.uw
  rcases addLocal_keys _ st.idx k hk2 with h1 | h2
  · exact uwFold_mem_old _ _ _ (h k h1)
  · rcases locFold_keys st.nextId _ 0 [] k h2 with h3 | h4
    · simp at h3
    · exact uwFold_mem_new _ _ _ h4

lemma buildGo_idx_sub_uw :
    ∀ (files : List FileInput) (st : BuildSt),
      (∀ k, k ∈ st.idx.map Prod.fst → k ∈ st.uw) →
      ∀ k, k ∈ (buildGo st files).idx.map Prod.fst →
        k ∈ (buildGo st files).uw := by
  intro files
  induction files with
  | nil => intro st h k hk; exact h k hk
  | cons f rest ih =>
    intro st h k
    unfold buildGo
    dsimp only
    split_ifs with hskip hstop
    · exact ih st h k
    · exact processFile_idx_sub_uw st f h k
    · exact ih _ (processFile_idx_sub_uw st f h) k

lemma build_from_files_idx (files : List FileInput)
    (h : files.isEmpty = false) :
    (HyperOptimizedIndex.build_from_files files).idx =
      (buildGo ⟨[], [], [], 0⟩ files).idx := by
  unfold HyperOptimizedIndex.build_from_files
  rw [if_neg (by simp [h])]

lemma build_from_files_trie (files : List FileInput)
    (h : files.isEmpty = false) :
    (HyperOptimizedIndex.build_from_files files).trie =
      (((sortByLen (buildGo ⟨[], [], [], 0⟩ files).uw).filter
          (fun w => decide (2 ≤ w.length ∧ w.length ≤ 20))).foldl
        UltraFastTrie.insert trieEmpty) := by
  unfold HyperOptimizedIndex.build_from_files
  rw [if_neg (by simp [h])]

/-- C6 amended: after `build_from_files`, every key of the inverted index
whose length is in [2, 20] AND which consists only of lowercase letters
`a..z` is present in the trie: it is returned by `starts_with` on itself for
every positive limit.  (Keys containing digits — legal index terms — cannot
be stored by `UltraFastTrie::insert`, which aborts on non-letter bytes; the
counterexample exhibits one.) -/
theorem C6_trie_amended (files : List FileInput) (t : Str)
    (h1 : t ∈ (HyperOptimizedIndex.build_from_files files).idx.map Prod.fst)
    (h2 : 2 ≤ t.length) (h3 : t.length ≤ 20)
    (h4 : ∀ c ∈ t, (charIdx c).isSome) (limit : Nat) (h5 : 1 ≤ limit) :
    t ∈ (UltraFastTrie.starts_with
      (HyperOptimizedIndex.build_from_files files).trie [] t limit).1 := by
  cases hf : files.isEmpty with
  | true =>
    exfalso
    have : files = [] := List.isEmpty_iff.1 hf
    subst this
    rw [show HyperOptimizedIndex.build_from_files [] =
      ⟨[], [], [], trieEmpty⟩ from rfl] at h1
    simp at h1
  | false =>
    rw [build_from_files_idx files hf] at h1
    rw [build_from_files_trie files hf]
    have huw : t ∈ (buildGo ⟨[], [], [], 0⟩ files).uw :=
      buildGo_idx_sub_uw files _ (by intro k hk; simp at hk) t h1
    have hsorted : t ∈ sortByLen (buildGo ⟨[], [], [], 0⟩ files).uw :=
      (sortBy_perm _ _).mem_iff.2 huw
    have hfiltered : t ∈ (sortByLen (buildGo ⟨[], [], [], 0⟩ files).uw).filter
        (fun w => decide (2 ≤ w.length ∧ w.length ≤ 20)) :=
      List.mem_filter.2 ⟨hsorted, by simp [h2, h3]⟩
    obtain ⟨n, hwalk, hend⟩ := fold_insert_mem _ trieEmpty t hfiltered h4
      (by intro hnil; rw [hnil] at h2; simp at h2) (by omega)
    exact starts_with_self_mem _ t limit h5 n hwalk hend
      (by intro hnil; rw [hnil] at h2; simp at h2)

/-- Witness for the amended C6 on a concrete two-word corpus. -/
theorem C6_trie_witness :
    ("hello".data ∈ (HyperOptimizedIndex.build_from_files
        [⟨"hello.txt".data, "hello world".data⟩]).idx.map Prod.fst) ∧
    2 ≤ ("hello".data).length ∧ ("hello".data).length ≤ 20 ∧
    (∀ c ∈ "hello".data, (charIdx c).isSome) ∧ 1 ≤ 10 ∧
    "hello".data ∈ (UltraFastTrie.starts_with
      (HyperOptimizedIndex.build_from_files
        [⟨"hello.txt".data, "hello world".data⟩]).trie []
      ("hello".data) 10).1 :=
  ⟨by decide, by decide, by decide, by decide, by omega,
    C6_trie_amended _ _ (by decide) (by decide) (by decide) (by decide)
      10 (by omega)⟩

/-- C6 counterexample: the file body "ab1" indexes the term "ab1" (length 3,
within [2, 20]), but `UltraFastTrie::insert` aborts on the digit byte, so no
`starts_with` limit ever returns it — the claim fails for index terms that
contain digits. -/
theorem C6_trie_counterexample :
    "ab1".data ∈ (engAB1.index.idx.map Prod.fst) ∧
    2 ≤ ("ab1".data).length ∧ ("ab1".data).length ≤ 20 ∧
    ¬ ∃ L0 : Nat, ∀ limit : Nat, L0 ≤ limit →
      "ab1".data ∈ (UltraFastTrie.starts_with engAB1.index.trie []
        ("ab1".data) limit).1 := by
  refine ⟨by decide, by decide, by decide, ?_⟩
  rintro ⟨L0, hL⟩
  have h := hL L0 le_rfl
  have hempty : (UltraFastTrie.starts_with engAB1.index.trie []
      ("ab1".data) L0).1 = [] := rfl
  rw [hempty] at h
  simp at h

/-! ## C7: snippet extraction -/

lemma isPref_length {pat s : Str} (h : isPref pat s = true) :
    pat.length ≤ s.length := by
  induction pat generalizing s with
  | nil => simp
  | cons a as ih =>
    cases s with
    | nil => simp [isPref] at h
    | cons b bs =>
      simp only [isPref, Bool.and_eq_true] at h
      have := ih h.2
      simp only [List.length_cons]
      omega

lemma occPositions_bound {text pat : Str} {p : Nat}
    (h : p ∈ occPositions text pat) (hlen : 2 ≤ pat.length) :
    p + 2 ≤ text.length := by
  unfold occPositions at h
  have h2 := List.mem_filter.1 h
  have hp : p < text.length := List.mem_range.1 h2.1
  have hpref : pat.length ≤ (text.drop p).length := isPref_length h2.2
  rw [List.length_drop] at hpref
  omega

lemma allMatches_bound (text : Str) (query_terms : List Str) :
    ∀ m ∈ allMatches text query_terms, m.1 + 2 ≤ text.length := by
  unfold allMatches
  have haux : ∀ (ts : List Str) (acc : List (Nat × Str)),
      (∀ m ∈ acc, m.1 + 2 ≤ text.length) →
      ∀ m ∈ ts.foldl (fun acc term =>
        if term.length < 2 then acc
        else acc ++ (occPositions text term).map (fun p => (p, term))) acc,
        m.1 + 2 ≤ text.length := by
    intro ts
    induction ts with
    | nil => intro acc hacc m hm; exact hacc m hm
    | cons t rest ih =>
      intro acc hacc m hm
      rw [List.foldl_cons] at hm
      refine ih _ ?_ m hm
      intro m' hm'
      split_ifs at hm' with hlen
      · exact hacc m' hm'
      · rcases List.mem_append.1 hm' with h1 | h2
        · exact hacc m' h1
        · obtain ⟨p, hp, hpm⟩ := List.mem_map.1 h2
          rw [← hpm]
          exact occPositions_bound hp (by omega)
  exact haux query_terms [] (by simp)

lemma dots_length : (("...".data : Str)).length = 3 := rfl

lemma windowAt_small (text : Str) (pos : Nat) (hpos : pos + 2 ≤ text.length)
    (h : (windowAt text pos).length ≤ 100) :
    windowAt text pos = text ∧ text.length ≤ 100 := by
  by_cases h2 : 200 < pos
  · exfalso
    unfold windowAt at h
    dsimp only at h
    rw [if_pos h2, if_pos (show 0 < pos - 200 by omega)] at h
    split_ifs at h with h1 <;>
      (simp only [List.length_append, List.length_take, List.length_drop,
        List.length_cons, List.length_nil] at h; omega)
  · unfold windowAt at h ⊢
    dsimp only at h ⊢
    rw [if_neg h2, if_neg (show ¬ (0 : Nat) < 0 by omega)] at h ⊢
    split_ifs at h ⊢ with h1
    · exfalso
      simp only [List.length_append, List.length_take, List.length_drop,
        List.length_cons, List.length_nil] at h
      omega
    · constructor
      · have hce : min (pos + 200) text.length = text.length := by omega
        rw [List.drop_zero, Nat.sub_zero, hce, List.take_length]
      · simp only [List.length_take, List.length_drop] at h
        omega

lemma windowAt_whole (text : Str) (pos : Nat) (hpos : pos + 2 ≤ text.length)
    (hL : text.length ≤ 100) : windowAt text pos = text := by
  unfold windowAt
  dsimp only
  rw [if_neg (show ¬ 200 < pos by omega)]
  have hce : min (pos + 200) text.length = text.length := by omega
  rw [if_neg (by omega), hce, if_neg (by omega), List.drop_zero, Nat.sub_zero,
    List.take_length]

lemma matchLoop_all_small (text : Str) :
    ∀ ms : List (Nat × Str),
      (∀ m ∈ ms, ¬ 100 < (windowAt text m.1).length) →
      matchLoop text ms = text.take (min 300 text.length) := by
  intro ms
  induction ms with
  | nil => intro _; rfl
  | cons m rest ih =>
    intro hall
    obtain ⟨pos, term⟩ := m
    unfold matchLoop
    dsimp only
    rw [if_neg (hall (pos, term) (List.mem_cons_self _ _))]
    exact ih (fun m hm => hall m (List.mem_cons_of_mem _ hm))

lemma matchLoop_eq (text : Str) :
    ∀ ms : List (Nat × Str), (∀ m ∈ ms, m.1 + 2 ≤ text.length) →
      matchLoop text ms =
        (match ms.find? (fun m => decide (100 ≤ (windowAt text m.1).length)) with
        | some m => windowAt text m.1
        | none => text.take (min 300 text.length)) := by
  intro ms
  induction ms with
  | nil => intro _; rfl
  | cons m rest ih =>
    intro hb
    obtain ⟨pos, term⟩ := m
    unfold matchLoop
    dsimp only
    by_cases h100 : 100 < (windowAt text pos).length
    · rw [if_pos h100,
        List.find?_cons_of_pos _ (by simp only [decide_eq_true_eq]; omega)]
    · rw [if_neg h100]
      by_cases h100' : 100 ≤ (windowAt text pos).length
      · have heq : (windowAt text pos).length = 100 := by omega
        obtain ⟨hwtext, hL⟩ := windowAt_small text pos
          (hb _ (List.mem_cons_self _ _)) (by omega)
        have hL100 : text.length = 100 := by rw [hwtext] at heq; exact heq
        have hall : ∀ m ∈ rest, ¬ 100 < (windowAt text m.1).length := by
          intro m hm
          rw [windowAt_whole text m.1 (hb _ (List.mem_cons_of_mem _ hm))
            (by omega)]
          omega
        rw [matchLoop_all_small text rest hall,
          List.find?_cons_of_pos _ (by simp only [decide_eq_true_eq]; omega)]
        dsimp only
        rw [hwtext]
        have hmin : min 300 text.length = text.length := by omega
        rw [hmin, List.take_length]
      · rw [List.find?_cons_of_neg _ (by simp only [decide_eq_true_eq]; omega)]
        exact ih (fun m hm => hb _ (List.mem_cons_of_mem _ hm))

lemma charAtD_drop {full : Str} {i : Nat} {c : Char} {rest : Str}
    (h : full.drop i = c :: rest) : charAtD full i = c := by
  unfold charAtD
  have h0 : (full.drop i).get? 0 = full.get? (i + 0) := List.get?_drop full i 0
  rw [h] at h0
  have : full.get? i = some c := by simpa using h0.symm
  rw [this]
  rfl

lemma drop_succ_of {full : Str} {i : Nat} {c : Char} {rest : Str}
    (h : full.drop i = c :: rest) : full.drop (i + 1) = rest := by
  have h1 : full.drop (i + 1) = (full.drop i).drop 1 := (List.drop_drop 1 i full).symm
  rw [h1, h]
  rfl

lemma noMatchGo_eq (full : Str) : ∀ (s : Str) (i : Nat), s = full.drop i →
    noMatchGo full s =
      (match ((List.range full.length).drop i).find?
          (fun j => isAlphaA (charAtD full j) &&
            decide (50 < (lineSliceAt full j).length)) with
      | some j => lineSliceAt full j
      | none => full.take (min 300 full.length)) := by
  intro s
  induction s with
  | nil =>
    intro i h
    have hlen : full.length ≤ i := by
      have := congrArg List.length h
      simp only [List.length_nil, List.length_drop] at this
      omega
    have hr : (List.range full.length).drop i = [] :=
      List.drop_eq_nil_iff.2 (by simpa using hlen)
    rw [hr]
    rfl
  | cons c rest ih =>
    intro i h
    have hi : i < full.length := by
      have := congrArg List.length h
      simp only [List.length_cons, List.length_drop] at this
      omega
    have hdropr : (List.range full.length).drop i =
        i :: (List.range full.length).drop (i + 1) := by
      rw [List.drop_eq_getElem_cons (by simpa using hi)]
      congr 1
      simp
    have hchar : charAtD full i = c := charAtD_drop h.symm
    have hrest : rest = full.drop (i + 1) := (drop_succ_of h.symm).symm
    have hslice : lineSliceAt full i =
        (c :: rest).take (min 300 (idxOfNl (c :: rest))) := by
      unfold lineSliceAt
      rw [← h]
    rw [hdropr]
    unfold noMatchGo
    dsimp only
    by_cases halpha : isAlphaA c
    · rw [if_pos halpha]
      by_cases hlen50 : 50 < ((c :: rest).take (min 300 (idxOfNl (c :: rest)))).length
      · rw [if_pos hlen50,
          List.find?_cons_of_pos _ (by
            rw [hchar, hslice, halpha]
            simp only [Bool.true_and, decide_eq_true_eq]
            exact hlen50)]
        dsimp only
        rw [hslice]
      · rw [if_neg hlen50,
          List.find?_cons_of_neg _ (by
            rw [hchar, hslice, halpha]
            simp only [Bool.true_and, decide_eq_true_eq]
            exact hlen50)]
        exact ih (i + 1) hrest
    · rw [List.find?_cons_of_neg _ (by
          rw [hchar]
          simp [halpha]),
        if_neg halpha]
      exact ih (i + 1) hrest

/-- C7 amended: `get_snippet_improved` computes, equivalently: with matches,
the earliest (position-sorted) context window of length at least 100 — the
source tests "more than 100", which is provably the same output — else the
first 300 bytes; with NO matches it scans positions left to right and returns
the first slice, truncated at the next newline and at 300 bytes, that is
longer than 50 bytes and starts at an alphabetic byte, else the first 300
bytes.  (The claim's no-match rule — "the first 300 bytes from the first
alphabetic character, provided that slice exceeds 50 bytes" — ignores the
newline truncation and the continued scan; the counterexample shows the
difference.) -/
theorem C7_snippet_amended (text : Str) (query_terms : List Str) :
    get_snippet_improved text query_terms = snippetSpec text query_terms := by
  unfold get_snippet_improved snippetSpec
  by_cases hguard : text.isEmpty ∨ query_terms.isEmpty
  · rw [if_pos hguard, if_pos hguard]
  · rw [if_neg hguard, if_neg hguard]
    dsimp only
    by_cases hemp : (allMatches text query_terms).isEmpty
    · have hnil : allMatches text query_terms = [] := List.isEmpty_iff.1 hemp
      have hsorted : sortBy pairLtB (allMatches text query_terms) = [] := by
        rw [hnil]
        rfl
      rw [if_pos hemp, if_pos (by rw [hsorted]; rfl)]
      have := noMatchGo_eq text text 0 (by simp)
      rw [List.drop_zero] at this
      exact this
    · have hlen : (sortBy pairLtB (allMatches text query_terms)).length =
          (allMatches text query_terms).length :=
        (sortBy_perm _ _).length_eq
      rw [if_neg hemp, if_neg (show ¬ (sortBy pairLtB
          (allMatches text query_terms)).isEmpty = true by
        rw [List.isEmpty_iff] at hemp ⊢
        intro hn
        apply hemp
        apply List.length_eq_zero.1
        rw [← hlen, hn]
        rfl)]
      exact matchLoop_eq text _ (fun m hm =>
        allMatches_bound text query_terms m ((sortBy_perm _ _).mem_iff.1 hm))

/-- C7 counterexample: text `"ab\n" ++ "c"*60` with a non-occurring term.
The claim prescribes the first 300 bytes from the first alphabetic character
(position 0) since that slice, the whole 63-byte text, exceeds 50 bytes; the
code instead truncates each candidate at the newline — "ab" is too short —
and returns the 60-byte second line. -/
theorem C7_snippet_counterexample :
    get_snippet_improved c7Text ["zz".data] = List.replicate 60 'c' ∧
    isAlphaA (charAtD c7Text 0) = true ∧
    50 < (c7Text.take 300).length ∧
    List.replicate 60 'c' ≠ c7Text.take 300 := by
  refine ⟨by decide, by decide, by decide, by decide⟩

/-! ## C5: index invariants after build -/

lemma toSigned16_small {n : Nat} (h : n < 32768) : toSigned16 n = (n : Int) := by
  unfold toSigned16
  rw [if_pos (show n % 65536 < 32768 by omega)]
  omega

lemma LocP_mono {d : Int} {i j : Nat} {p : Posting} (hij : i ≤ j)
    (h : LocP d i p) : LocP d j p := by
  obtain ⟨h1, h2, h3, raw, h4, h5, h6⟩ := h
  exact ⟨h1, h2, h3, raw, h4, h5, fun r hr => lt_of_lt_of_le (h6 r hr) hij⟩

lemma LocP_init (d : Int) (i : Nat) : LocP d i (Posting.mk d 0 []) := by
  refine ⟨rfl, ?_, ?_, [], ?_, ?_, ?_⟩ <;> simp

lemma postingBump_LocP {d : Int} {i : Nat} {p : Posting} (h : LocP d i p) :
    LocP d (i + 1) (postingBump i p) := by
  obtain ⟨h1, h2, h3, raw, h4, h5, h6⟩ := h
  unfold postingBump
  split_ifs with hfreq hpos
  · refine ⟨h1, show p.freq + 1 ≤ 1000 by omega, ?_, raw ++ [i], ?_, ?_, ?_⟩
    · show (p.positions ++ [toSigned16 i]).length = min (p.freq + 1) 50
      simp only [List.length_append, List.length_singleton, h3]
      omega
    · show p.positions ++ [toSigned16 i] = (raw ++ [i]).map toSigned16
      simp [h4]
    · rw [List.pairwise_append]
      exact ⟨h5, by simp, fun a ha b hb => by
        simp only [List.mem_singleton] at hb
        subst hb
        exact h6 a ha⟩
    · intro r hr
      rcases List.mem_append.1 hr with hr1 | hr2
      · exact lt_of_lt_of_le (h6 r hr1) (by omega)
      · simp only [List.mem_singleton] at hr2
        omega
  · refine ⟨h1, show p.freq + 1 ≤ 1000 by omega, ?_, raw, h4, h5,
      fun r hr => lt_of_lt_of_le (h6 r hr) (by omega)⟩
    show p.positions.length = min (p.freq + 1) 50
    rw [h3]
    omega
  · exact LocP_mono (by omega) ⟨h1, h2, h3, raw, h4, h5, h6⟩

lemma alistUpdate_forall {κ α : Type} [DecidableEq κ] {Q R : α → Prop}
    (k : κ) (dflt : α) (f : α → α) (l : List (κ × α))
    (hl : ∀ kv ∈ l, Q kv.2) (hd : R (f dflt)) (hf : ∀ v, Q v → R (f v))
    (hQR : ∀ v, Q v → R v) :
    ∀ kv ∈ alistUpdate k dflt f l, R kv.2 := by
  induction l with
  | nil =>
    intro kv hkv
    simp only [alistUpdate, List.mem_singleton] at hkv
    subst hkv
    exact hd
  | cons kv0 rest ih =>
    obtain ⟨k0, v0⟩ := kv0
    intro kv hkv
    by_cases hk : k0 = k
    · simp only [alistUpdate, if_pos hk] at hkv
      rcases List.mem_cons.1 hkv with h1 | h2
      · subst h1
        exact hf v0 (hl (k0, v0) (List.mem_cons_self _ _))
      · exact hQR _ (hl kv (List.mem_cons_of_mem _ h2))
    · simp only [alistUpdate, if_neg hk] at hkv
      rcases List.mem_cons.1 hkv with h1 | h2
      · subst h1
        exact hQR _ (hl (k0, v0) (List.mem_cons_self _ _))
      · exact ih (fun kv' hkv' => hl kv' (List.mem_cons_of_mem _ hkv')) kv h2

lemma locFold_LocP (d : Int) :
    ∀ (ts : List Str) (i : Nat) (m : List (Str × Posting)),
      (∀ kv ∈ m, LocP d i kv.2) →
      ∀ kv ∈ locFold d ts i m, LocP d (i + ts.length) kv.2 := by
  intro ts
  induction ts with
  | nil => intro i m hm kv hkv; simpa using hm kv hkv
  | cons t rest ih =>
    intro i m hm kv hkv
    have hupd : ∀ kv ∈ alistUpdate t (Posting.mk d 0 []) (postingBump i) m,
        LocP d (i + 1) kv.2 :=
      alistUpdate_forall t _ _ m hm (postingBump_LocP (LocP_init d i))
        (fun v hv => postingBump_LocP hv) (fun v hv => LocP_mono (by omega) hv)
    have := ih (i + 1) _ hupd kv hkv
    have harith : i + 1 + rest.length = i + (t :: rest).length := by
      simp only [List.length_cons]
      omega
    rwa [harith] at this

lemma locFold_keys_nodup (d : Int) :
    ∀ (ts : List Str) (i : Nat) (m : List (Str × Posting)),
      (m.map Prod.fst).Nodup → ((locFold d ts i m).map Prod.fst).Nodup := by
  intro ts
  induction ts with
  | nil => intro i m h; exact h
  | cons t rest ih =>
    intro i m h
    exact ih (i + 1) _
      (alistUpdate_keys_nodup t (Posting.mk d 0 []) (postingBump i) m h)

lemma addLocal_lookup :
    ∀ (loc : List (Str × Posting)), (loc.map Prod.fst).Nodup →
      ∀ (idx : List (Str × List Posting)) (t : Str),
        alistLookup t (addLocal idx loc) =
          match alistLookup t loc with
          | some p => some ((alistLookup t idx).getD [] ++ [p])
          | none => alistLookup t idx := by
  intro loc
  induction loc with
  | nil => intro _ idx t; rfl
  | cons kv0 rest ih =>
    obtain ⟨k0, p0⟩ := kv0
    intro hnd idx t
    have hnd' : (k0 :: rest.map Prod.fst).Nodup := by
      rw [List.map_cons] at hnd
      exact hnd
    have hih := ih ((List.nodup_cons.1 hnd').2)
      (alistUpdate k0 [] (fun ps => ps ++ [p0]) idx) t
    show alistLookup t (addLocal (alistUpdate k0 [] (fun ps => ps ++ [p0]) idx)
        rest) = _
    rw [hih]
    by_cases hk : k0 = t
    · subst hk
      have hrest : alistLookup k0 rest = none := by
        cases hr : alistLookup k0 rest with
        | none => rfl
        | some p =>
          exfalso
          exact (List.nodup_cons.1 hnd').1
            (List.mem_map.2 ⟨(k0, p), alistLookup_mem hr, rfl⟩)
      rw [hrest, alistLookup_cons, if_pos rfl, alistLookup_update_self]
    · rw [alistLookup_cons, if_neg hk,
        alistLookup_update_other k0 t (fun h => hk h) [] _ idx]

lemma docAt_append {docs : List Document} {doc : Document} {d : Int}
    (h0 : 0 ≤ d) (h1 : d < (docs.length : Int)) :
    docAt (docs ++ [doc]) d = docAt docs d := by
  unfold docAt
  have hlt : d.toNat < docs.length := by omega
  rw [dif_pos ⟨h0, by simp only [List.length_append, List.length_singleton]; omega⟩,
    dif_pos ⟨h0, hlt⟩]
  simp only [List.get_eq_getElem]
  exact List.getElem_append_left hlt

lemma docAt_last (docs : List Document) (doc : Document) :
    docAt (docs ++ [doc]) ((docs.length : Nat) : Int) = doc := by
  unfold docAt
  rw [dif_pos ⟨by omega, by simp⟩]
  simp only [List.get_eq_getElem, Int.toNat_natCast]
  exact List.getElem_concat_length docs doc docs.length rfl (by simp)

lemma PostingOK_append {docs : List Document} {doc : Document} {p : Posting}
    (h : PostingOK docs p) : PostingOK (docs ++ [doc]) p := by
  obtain ⟨h0, h1, h2, h3, raw, h4, h5, h6⟩ := h
  refine ⟨h0, by simp only [List.length_append, List.length_singleton]; omega,
    h2, h3, raw, h4, h5, ?_⟩
  rw [docAt_append h0 h1]
  exact h6

lemma PostingOK_new {docs : List Document} {doc : Document} {p : Posting}
    (h : LocP ((docs.length : Nat) : Int) doc.totalTokens p) :
    PostingOK (docs ++ [doc]) p := by
  obtain ⟨h1, h2, h3, raw, h4, h5, h6⟩ := h
  refine ⟨by omega, by simp only [h1, List.length_append, List.length_singleton]; omega,
    h2, h3, raw, h4, h5, ?_⟩
  rw [h1, docAt_last]
  exact h6

lemma IdxInv_step {idx : List (Str × List Posting)} {docs : List Document}
    (hinv : IdxInv idx docs) (tokens : List Str) (doc : Document)
    (hdoc : doc.totalTokens = tokens.length) :
    IdxInv (addLocal idx (locFold ((docs.length : Nat) : Int) tokens 0 []))
      (docs ++ [doc]) := by
  set d : Int := ((docs.length : Nat) : Int) with hd
  have hnd : ((locFold d tokens 0 []).map Prod.fst).Nodup :=
    locFold_keys_nodup d tokens 0 [] (by simp)
  have hLocP : ∀ kv ∈ locFold d tokens 0 [], LocP d doc.totalTokens kv.2 := by
    intro kv hkv
    have := locFold_LocP d tokens 0 [] (by simp) kv hkv
    rw [hdoc]
    simpa using this
  intro t ps hps
  rw [addLocal_lookup _ hnd idx t] at hps
  cases hloc : alistLookup t (locFold d tokens 0 []) with
  | none =>
    rw [hloc] at hps
    obtain ⟨hpair, hok⟩ := hinv t ps hps
    exact ⟨hpair, fun p hp => PostingOK_append (hok p hp)⟩
  | some p0 =>
    rw [hloc] at hps
    simp only [Option.some.injEq] at hps
    subst hps
    have hp0 : LocP d doc.totalTokens p0 :=
      hLocP (t, p0) (alistLookup_mem hloc)
    have hp0ok : PostingOK (docs ++ [doc]) p0 := PostingOK_new hp0
    have hp0id : p0.docID = d := hp0.1
    cases hold : alistLookup t idx with
    | none =>
      simp only [Option.getD_none, List.nil_append]
      exact ⟨by simp, fun p hp => by
        simp only [List.mem_singleton] at hp
        subst hp
        exact hp0ok⟩
    | some old =>
      simp only [Option.getD_some]
      obtain ⟨hpair, hok⟩ := hinv t old hold
      constructor
      · rw [List.map_append, List.pairwise_append]
        refine ⟨hpair, by simp, ?_⟩
        intro a ha b hb
        simp only [List.map_singleton, List.mem_singleton] at hb
        subst hb
        obtain ⟨p, hp, hpa⟩ := List.mem_map.1 ha
        have := (hok p hp).2.1
        rw [hp0id, hd, ← hpa]
        exact this
      · intro p hp
        rcases List.mem_append.1 hp with h1 | h2
        · exact PostingOK_append (hok p h1)
        · simp only [List.mem_singleton] at h2
          subst h2
          exact hp0ok

lemma buildGo_IdxInv :
    ∀ (files : List FileInput) (st : BuildSt),
      st.nextId = ((st.docs.length : Nat) : Int) → IdxInv st.idx st.docs →
      (buildGo st files).nextId =
          (((buildGo st files).docs.length : Nat) : Int) ∧
        IdxInv (buildGo st files).idx (buildGo st files).docs := by
  intro files
  induction files with
  | nil => intro st h1 h2; exact ⟨h1, h2⟩
  | cons f rest ih =>
    intro st h1 h2
    have hstep1 : (processFile st f).nextId =
        (((processFile st f).docs.length : Nat) : Int) := by
      unfold processFile
      dsimp only
      rw [h1]
      simp only [List.length_append, List.length_singleton]
      push_cast
      ring
    have hstep2 : IdxInv (processFile st f).idx (processFile st f).docs := by
      unfold processFile
      dsimp only
      rw [h1]
      exact IdxInv_step h2 (tokenize_ultrafast f.content) _ rfl
    unfold buildGo
    dsimp only
    split_ifs with hskip hstop
    · exact ih st h1 h2
    · exact ⟨hstep1, hstep2⟩
    · exact ih _ hstep1 hstep2

lemma build_from_files_docs (files : List FileInput)
    (h : files.isEmpty = false) :
    (HyperOptimizedIndex.build_from_files files).docs =
      (buildGo ⟨[], [], [], 0⟩ files).docs := by
  unfold HyperOptimizedIndex.build_from_files
  rw [if_neg (by simp [h])]

lemma build_from_files_docFreq (files : List FileInput)
    (h : files.isEmpty = false) :
    (HyperOptimizedIndex.build_from_files files).docFreq =
      (buildGo ⟨[], [], [], 0⟩ files).idx.map
        (fun kv => (kv.1, min kv.2.length 32767)) := by
  unfold HyperOptimizedIndex.build_from_files
  rw [if_neg (by simp [h])]

/-- C5 amended: after `build_from_files`, `doc_freq[t]` is the posting count
of `t` saturated at 32767 (the field is a 16-bit `short`), posting docIDs per
term are pairwise distinct, `0 ≤ freq ≤ 1000` and
`len(positions) ≤ min(freq, 50)`; the stored positions are the 16-bit
narrowings of a strictly increasing list of valid token indices of the
posting's own document, so whenever that document has at most 32768 tokens
they are themselves strictly increasing valid token indices.  (For larger
documents the `short` field overflows — see the counterexample.) -/
theorem C5_invariants_amended (files : List FileInput) (t : Str)
    (ps : List Posting)
    (hlook : alistLookup t (HyperOptimizedIndex.build_from_files files).idx =
      some ps) :
    alistLookup t (HyperOptimizedIndex.build_from_files files).docFreq =
      some (min ps.length 32767) ∧
    (ps.map Posting.docID).Nodup ∧
    ∀ p ∈ ps, p.freq ≤ 1000 ∧ p.positions.length ≤ min p.freq 50 ∧
      PostingOK (HyperOptimizedIndex.build_from_files files).docs p ∧
      ((docAt (HyperOptimizedIndex.build_from_files files).docs
          p.docID).totalTokens ≤ 32768 →
        p.positions.Pairwise (· < ·) ∧
        ∀ v ∈ p.positions, 0 ≤ v ∧
          v < (((docAt (HyperOptimizedIndex.build_from_files files).docs
            p.docID).totalTokens : Nat) : Int)) := by
  cases hf : files.isEmpty with
  | true =>
    exfalso
    have hnil : files = [] := List.isEmpty_iff.1 hf
    subst hnil
    rw [show (HyperOptimizedIndex.build_from_files []).idx = [] from rfl] at hlook
    exact absurd hlook (by simp [alistLookup])
  | false =>
    have hbase : IdxInv ([] : List (Str × List Posting)) [] := by
      intro t ps h
      exact absurd h (by simp [alistLookup])
    have hinv := (buildGo_IdxInv files ⟨[], [], [], 0⟩ (by simp) hbase).2
    rw [build_from_files_idx files hf] at hlook
    rw [build_from_files_docFreq files hf, build_from_files_docs files hf]
    obtain ⟨hpair, hok⟩ := hinv t ps hlook
    refine ⟨?_, ?_, ?_⟩
    · rw [alistLookup_map_value t (fun v : List Posting => min v.length 32767), hlook]
      rfl
    · exact hpair.imp (fun hlt => ne_of_lt hlt)
    · intro p hp
      obtain ⟨k0, k1, k2, k3, raw, k4, k5, k6⟩ := hok p hp
      refine ⟨k2, le_of_eq k3, ⟨k0, k1, k2, k3, raw, k4, k5, k6⟩, ?_⟩
      intro hT
      have hsmall : ∀ r ∈ raw, toSigned16 r = (Nat.cast : Nat → Int) r := by
        intro r hr
        exact toSigned16_small (by have := k6 r hr; omega)
      have hmap : p.positions = raw.map (Nat.cast : Nat → Int) := by
        rw [k4]
        exact List.map_congr_left hsmall
      constructor
      · rw [hmap, List.pairwise_map]
        exact k5.imp (fun h => by exact_mod_cast h)
      · intro v hv
        rw [hmap] at hv
        obtain ⟨r, hr, hrv⟩ := List.mem_map.1 hv
        have hb := k6 r hr
        rw [← hrv]
        exact ⟨Int.natCast_nonneg r, by exact_mod_cast hb⟩

/-- Witness for the amended C5 at a concrete one-document build. -/
theorem C5_invariants_witness :
    (alistLookup ("aa".data) (HyperOptimizedIndex.build_from_files
        [⟨"a.txt".data, "aa aa".data⟩]).idx =
      some [Posting.mk 0 2 [0, 1]]) ∧
    (alistLookup ("aa".data) (HyperOptimizedIndex.build_from_files
        [⟨"a.txt".data, "aa aa".data⟩]).docFreq =
      some (min ([Posting.mk 0 2 [0, 1]] : List Posting).length 32767) ∧
    (([Posting.mk 0 2 [0, 1]] : List Posting).map Posting.docID).Nodup ∧
    ∀ p ∈ ([Posting.mk 0 2 [0, 1]] : List Posting),
      p.freq ≤ 1000 ∧ p.positions.length ≤ min p.freq 50 ∧
      PostingOK (HyperOptimizedIndex.build_from_files
        [⟨"a.txt".data, "aa aa".data⟩]).docs p ∧
      ((docAt (HyperOptimizedIndex.build_from_files
          [⟨"a.txt".data, "aa aa".data⟩]).docs p.docID).totalTokens ≤ 32768 →
        p.positions.Pairwise (· < ·) ∧
        ∀ v ∈ p.positions, 0 ≤ v ∧
          v < (((docAt (HyperOptimizedIndex.build_from_files
            [⟨"a.txt".data, "aa aa".data⟩]).docs p.docID).totalTokens : Nat) : Int))) := by
  have hlook : alistLookup ("aa".data) (HyperOptimizedIndex.build_from_files
      [⟨"a.txt".data, "aa aa".data⟩]).idx = some [Posting.mk 0 2 [0, 1]] := by
    decide
  exact ⟨hlook, C5_invariants_amended _ _ _ hlook⟩

/-! ## C5 counterexample: 16-bit narrowing of token positions -/

lemma tokLoop_aa_step (rest : Str) (n : Nat) (h : n < 100000) :
    tokLoop ('a' :: 'a' :: ' ' :: rest) [] n =
      ("aa".data) :: tokLoop rest [] (n + 1) := by
  have h0 : ¬ (100000 ≤ n) := by omega
  rw [tokLoop,
    if_neg (show ¬ ('a'.toNat = 0) from by decide), if_neg h0,
    if_pos (show isAlnumA 'a' = true from by decide),
    if_pos (show List.length ([] : Str) < 31 from by decide),
    show ([] : Str) ++ [toLowerA 'a'] = ['a'] from by decide]
  rw [tokLoop,
    if_neg (show ¬ ('a'.toNat = 0) from by decide), if_neg h0,
    if_pos (show isAlnumA 'a' = true from by decide),
    if_pos (show List.length (['a'] : Str) < 31 from by decide),
    show (['a'] : Str) ++ [toLowerA 'a'] = ['a', 'a'] from by decide]
  rw [tokLoop,
    if_neg (show ¬ (' '.toNat = 0) from by decide), if_neg h0,
    if_neg (show ¬ (isAlnumA ' ' = true) from by decide)]
  rfl

lemma tokLoop_aa_chunks (k : Nat) (rest : Str) (n : Nat)
    (h : n + k ≤ 100000) :
    tokLoop ((List.replicate k (['a', 'a', ' '] : Str)).flatten ++ rest) [] n =
      List.replicate k ("aa".data) ++ tokLoop rest [] (n + k) := by
  induction k generalizing n with
  | zero => simp
  | succ k ih =>
    simp only [List.replicate_succ, List.flatten_cons, List.cons_append,
      List.nil_append, List.append_assoc]
    rw [tokLoop_aa_step _ n (by omega)]
    rw [ih (n + 1) (by omega)]
    rw [show n + 1 + k = n + (k + 1) from by omega]

lemma tokenize_fileBig :
    tokenize_ultrafast fileBig.content =
      List.replicate 32768 ("aa".data) ++ ["cd".data, "cd".data] := by
  show tokLoop ((List.replicate 32768 (['a', 'a', ' '] : Str)).flatten ++
    "cd cd".data) [] 0 = _
  rw [tokLoop_aa_chunks 32768 ("cd cd".data) 0 (by omega)]
  exact congrArg (fun l => List.replicate 32768 ("aa".data) ++ l)
    (show tokLoop ("cd cd".data) [] (0 + 32768) = ["cd".data, "cd".data] from by
      decide)

lemma postingBump_pSat (i : Nat) : postingBump i pSat = pSat := rfl

lemma postingBump_pAcc (i : Nat) (h : i < 1000) :
    postingBump i (pAcc i) = pAcc (i + 1) := by
  unfold postingBump pAcc
  dsimp only
  rw [if_pos h]
  by_cases h50 : i < 50
  · rw [if_pos (show ((List.range (min i 50)).map toSigned16).length < 50 from by
      rw [List.length_map, List.length_range]; omega)]
    rw [show min i 50 = i from by omega, show min (i + 1) 50 = i + 1 from by omega]
    rw [List.range_succ, List.map_append]
    rfl
  · rw [if_neg (show ¬ ((List.range (min i 50)).map toSigned16).length < 50 from by
      rw [List.length_map, List.length_range]; omega)]
    rw [show min i 50 = 50 from by omega, show min (i + 1) 50 = 50 from by omega]

lemma locFold_aa_acc (n : Nat) : ∀ i, i + n ≤ 1000 →
    locFold 0 (List.replicate n ("aa".data)) i [("aa".data, pAcc i)] =
      [("aa".data, pAcc (i + n))] := by
  induction n with
  | zero => intro i h; rw [Nat.add_zero]; rfl
  | succ n ih =>
    intro i h
    rw [List.replicate_succ]
    show locFold 0 (List.replicate n ("aa".data)) (i + 1)
      (alistUpdate ("aa".data) (Posting.mk 0 0 []) (postingBump i)
        [("aa".data, pAcc i)]) = _
    rw [show alistUpdate ("aa".data) (Posting.mk 0 0 []) (postingBump i)
        [("aa".data, pAcc i)] = [("aa".data, pAcc (i + 1))] from by
      simp [alistUpdate, postingBump_pAcc i (by omega)]]
    rw [show i + (n + 1) = (i + 1) + n from by omega]
    exact ih (i + 1) (by omega)

lemma locFold_append (d : Int) (ts us : List Str) : ∀ (i : Nat)
    (m : List (Str × Posting)),
    locFold d (ts ++ us) i m = locFold d us (i + ts.length) (locFold d ts i m) := by
  induction ts with
  | nil => intro i m; simp [locFold]
  | cons t ts ih =>
    intro i m
    rw [List.cons_append]
    show locFold d (ts ++ us) (i + 1) _ = _
    rw [ih (i + 1) _]
    rw [show i + 1 + ts.length = i + (t :: ts).length from by
      simp only [List.length_cons]; omega]
    rfl

lemma locFold_phaseA :
    locFold 0 (List.replicate 1000 ("aa".data)) 0 [] = [("aa".data, pSat)] := by
  rw [show (1000 : Nat) = 1 + 999 from by norm_num, List.replicate_add,
    List.replicate_one, locFold_append]
  rw [show locFold 0 [("aa".data)] 0 ([] : List (Str × Posting)) =
    [("aa".data, pAcc 1)] from by decide]
  rw [show (0 : Nat) + ([("aa".data)] : List Str).length = 1 from rfl]
  rw [locFold_aa_acc 999 1 (by omega)]
  rfl

lemma locFold_aa_sat (n : Nat) : ∀ i,
    locFold 0 (List.replicate n ("aa".data)) i [("aa".data, pSat)] =
      [("aa".data, pSat)] := by
  induction n with
  | zero => intro i; rfl
  | succ n ih =>
    intro i
    rw [List.replicate_succ]
    show locFold 0 (List.replicate n ("aa".data)) (i + 1)
      (alistUpdate ("aa".data) (Posting.mk 0 0 []) (postingBump i)
        [("aa".data, pSat)]) = _
    rw [show alistUpdate ("aa".data) (Posting.mk 0 0 []) (postingBump i)
        [("aa".data, pSat)] = [("aa".data, pSat)] from by
      simp [alistUpdate, postingBump_pSat]]
    exact ih (i + 1)

lemma locFold_fileBig :
    locFold 0 (List.replicate 32768 ("aa".data) ++ ["cd".data, "cd".data]) 0 [] =
      [("aa".data, pSat), ("cd".data, Posting.mk 0 2 [-32768, -32767])] := by
  rw [show (32768 : Nat) = 1000 + 31768 from by norm_num, List.replicate_add,
    List.append_assoc, locFold_append, locFold_phaseA, locFold_append]
  rw [List.length_replicate, locFold_aa_sat 31768 (0 + 1000), List.length_replicate]
  show locFold 0 ["cd".data, "cd".data] 32768 [("aa".data, pSat)] = _
  decide

lemma uwStep_mem (uw : List Str) (t : Str) (h : t ∈ uw) : uwStep uw t = uw := by
  simp [uwStep, h]

lemma uwFold_aa_sat (n : Nat) (uw : List Str) (h : ("aa".data) ∈ uw) :
    (List.replicate n ("aa".data)).foldl uwStep uw = uw := by
  induction n with
  | zero => rfl
  | succ n ih =>
    rw [List.replicate_succ, List.foldl_cons, uwStep_mem uw _ h]
    exact ih

lemma uwFold_fileBig :
    (List.replicate 32768 ("aa".data) ++ ["cd".data, "cd".data]).foldl
      uwStep [] = ["aa".data, "cd".data] := by
  rw [List.foldl_append]
  rw [show (32768 : Nat) = 1 + 32767 from by norm_num, List.replicate_add,
    List.foldl_append]
  rw [show (List.replicate 1 ("aa".data)).foldl uwStep [] = [("aa".data)] from by decide]
  rw [uwFold_aa_sat 32767 [("aa".data)] (by decide)]
  decide

lemma buildGo_fileBig :
    buildGo ⟨[], [], [], 0⟩ [fileBig] =
      ⟨[(("aa".data), [pSat]),
        (("cd".data), [Posting.mk 0 2 [-32768, -32767]])],
       [⟨"big.txt".data, "big.txt".data, 32770, 98309, fileBig.content⟩],
       ["aa".data, "cd".data], 1⟩ := by
  have hflat : ∀ n : Nat,
      ((List.replicate n (['a', 'a', ' '] : Str)).flatten).length = n * 3 := by
    intro n
    induction n with
    | zero => rfl
    | succ n ih =>
      rw [List.replicate_succ, List.flatten_cons, List.length_append, ih]
      show 3 + n * 3 = (n + 1) * 3
      omega
  have hlen : fileBig.content.length = 98309 := by
    show ((List.replicate 32768 (['a', 'a', ' '] : Str)).flatten ++
      "cd cd".data).length = 98309
    rw [List.length_append, hflat 32768]
    show 32768 * 3 + 5 = 98309
    norm_num
  have hst : processFile ⟨[], [], [], 0⟩ fileBig =
      ⟨[(("aa".data), [pSat]),
        (("cd".data), [Posting.mk 0 2 [-32768, -32767]])],
       [⟨"big.txt".data, "big.txt".data, 32770, 98309, fileBig.content⟩],
       ["aa".data, "cd".data], 1⟩ := by
    unfold processFile
    dsimp only
    rw [tokenize_fileBig, hlen, locFold_fileBig, uwFold_fileBig]
    rw [show fileBig.path = "big.txt".data from rfl]
    rw [show baseName ("big.txt".data) = "big.txt".data from by decide]
    rw [show (List.replicate 32768 ("aa".data) ++
        ["cd".data, "cd".data]).length = 32770 from by
      rw [List.length_append, List.length_replicate]; rfl]
    rfl
  show (if 100 * 1024 * 1024 < fileBig.content.length then buildGo ⟨[], [], [], 0⟩ []
    else _) = _
  rw [if_neg (show ¬ (100 * 1024 * 1024 < fileBig.content.length) from by
    rw [hlen]; omega)]
  dsimp only
  rw [hst]
  rfl

/-- C5 counterexample: in a document of 32770 tokens the positions stored for
the term "cd" (token indices 32768 and 32769) read back from the `short`
field as -32768 and -32767, which are not valid token indices of document 0,
refuting the claim that every stored position is a valid token index of the
posting's document. -/
theorem C5_invariants_counterexample :
    alistLookup ("cd".data)
        (HyperOptimizedIndex.build_from_files [fileBig]).idx =
      some [Posting.mk 0 2 [-32768, -32767]] ∧
    (docAt (HyperOptimizedIndex.build_from_files [fileBig]).docs 0).totalTokens
      = 32770 ∧
    ¬ (0 ≤ (-32768 : Int)) := by
  have hidx := build_from_files_idx [fileBig] rfl
  have hdocs := build_from_files_docs [fileBig] rfl
  rw [buildGo_fileBig] at hidx hdocs
  refine ⟨?_, ?_, by omega⟩
  · rw [hidx]; decide
  · rw [hdocs]; rfl

/-! ## C1: the ranker reads the first document's token count everywhere -/

lemma codeTokSrc_engC1 (p : Posting) : codeTokSrc engC1 p = 2 := by
  show headTokens engC1.index.docs = 2
  decide

lemma specTokSrc_engC1 : specTokSrc engC1 (Posting.mk 1 1 [0]) = 1 := by
  decide

lemma idf_engC1_qq (fns : RF) :
    HyperFastSearchEngine.idf fns engC1 ("qq".data) =
      fns.log10 ((2 : ℚ) / (1 : ℚ) + 1) := by
  rw [HyperFastSearchEngine.idf]
  simp only [show alistLookup ("qq".data) engC1.index.docFreq = some 1 from by
    decide]
  rw [if_neg (show ¬ ((1 : Nat) = 0 ∨ engC1.Ndocs = 0) from by decide)]
  rfl

lemma hasT_engC1_qq (d : Int) : hasTOf engC1 ("qq".data) d = false := by
  show hasTitle (toLowerFast (docAt engC1.index.docs d).filename)
    (qtokensOf ("qq".data)) = false
  rw [show qtokensOf ("qq".data) = [("qq".data)] from by decide]
  simp [hasTitle]

lemma epd_engC1_qq : epdOf engC1 ("qq".data) = [] := by decide

lemma scores_code (fns : RF) : (scoreStOf fns engC1 ("qq".data)).scores =
    [(1, (1 + fns.ln (501 / 500))⁻¹ * fns.log10 3 * (7 / 5))] := by
  rw [scoreStOf, scoreQuery]
  rw [show qtokensOf ("qq".data) = [("qq".data)] from by decide]
  rw [List.foldl_cons, List.foldl_nil]
  simp only [show alistLookup ("qq".data) engC1.index.idx =
    some [Posting.mk 1 1 [0]] from by decide]
  rw [List.foldl_cons, List.foldl_nil]
  simp only [accPosting, codeTokSrc_engC1,
    List.map_cons, List.map_nil, List.sum_cons, List.sum_nil,
    List.length_cons, List.length_nil, Int.cast_zero, Nat.cast_ofNat,
    Nat.cast_one]
  norm_num
  rw [hasT_engC1_qq 1, epd_engC1_qq, idf_engC1_qq]
  norm_num [alistUpdate]

lemma scores_spec (fns : RF) :
    (scoreQuery fns engC1 (specTokSrc engC1) (qtokensOf ("qq".data))
      (epdOf engC1 ("qq".data)) (hasTOf engC1 ("qq".data))
      (bonusTOf engC1 ("qq".data))).scores =
    [(1, (1 + fns.ln (1001 / 1000))⁻¹ * fns.log10 3 * (7 / 5))] := by
  rw [scoreQuery]
  rw [show qtokensOf ("qq".data) = [("qq".data)] from by decide]
  rw [List.foldl_cons, List.foldl_nil]
  simp only [show alistLookup ("qq".data) engC1.index.idx =
    some [Posting.mk 1 1 [0]] from by decide]
  rw [List.foldl_cons, List.foldl_nil]
  simp only [accPosting, specTokSrc_engC1,
    List.map_cons, List.map_nil, List.sum_cons, List.sum_nil,
    List.length_cons, List.length_nil, Int.cast_zero, Nat.cast_ofNat,
    Nat.cast_one]
  norm_num
  rw [hasT_engC1_qq 1, epd_engC1_qq, idf_engC1_qq]
  norm_num [alistUpdate]

lemma final_code_eval (fns : RF) :
    alistLookup 1 (finalScores fns engC1 ("qq".data)) =
      some ((1 + fns.ln (501 / 500))⁻¹ * fns.log10 3 * (7 / 5) * (1 / 10)) := by
  unfold finalScores
  rw [if_pos (show searchActive engC1 ("qq".data) = true from by decide)]
  rw [scores_code fns]
  unfold normalizeScores
  rw [List.map_cons, List.map_nil]
  dsimp only
  rw [if_pos (show codeLenSrc engC1 (1 : Int) < 100 from by decide)]
  rw [hasT_engC1_qq 1]
  norm_num [alistUpdate, alistLookup]

lemma final_spec_eval (fns : RF) :
    alistLookup 1 (finalScoresSpec fns engC1 ("qq".data)) =
      some ((1 + fns.ln (1001 / 1000))⁻¹ * fns.log10 3 * (7 / 5) * (1 / 10)) := by
  unfold finalScoresSpec
  rw [if_pos (show searchActive engC1 ("qq".data) = true from by decide)]
  rw [scores_spec fns]
  unfold normalizeScores
  rw [List.map_cons, List.map_nil]
  dsimp only
  rw [if_pos (show specLenSrc engC1 (1 : Int) < 100 from by decide)]
  rw [hasT_engC1_qq 1]
  norm_num [alistUpdate, alistLookup]

/-- C1: the ranker does NOT use each posting's own document's token count.
For the two-document corpus `engC1` (document 0 has 2 tokens, document 1 has
1 token) and the query "qq" (which occurs only in document 1), the score the
code assigns to document 1 — which reads `index.docs.head->val.totalTokens`,
the FIRST document's count, for both the tf denominator and the
normalization — differs from the score the claim prescribes, for every
interpretation of the transcendentals under which the two tf denominators
are nonzero and distinguishable and the idf value is nonzero. -/
theorem C1_totalTokens_code_bug (fns : RF)
    (h1 : 1 + fns.ln (501 / 500) ≠ 0) (h2 : 1 + fns.ln (1001 / 1000) ≠ 0)
    (h3 : fns.log10 3 ≠ 0)
    (h4 : fns.ln (501 / 500) ≠ fns.ln (1001 / 1000)) :
    alistLookup 1 (finalScores fns engC1 ("qq".data)) ≠
      alistLookup 1 (finalScoresSpec fns engC1 ("qq".data)) := by
  rw [final_code_eval fns, final_spec_eval fns]
  intro heq
  have h5 := Option.some.inj heq
  field_simp at h5
  exact h4 h5.symm

/-- Witness for C1 at the identity interpretation of the transcendentals. -/
theorem C1_totalTokens_witness :
    (1 + rfId.ln (501 / 500) ≠ 0) ∧ (1 + rfId.ln (1001 / 1000) ≠ 0) ∧
    (rfId.log10 3 ≠ 0) ∧ (rfId.ln (501 / 500) ≠ rfId.ln (1001 / 1000)) ∧
    alistLookup 1 (finalScores rfId engC1 ("qq".data)) ≠
      alistLookup 1 (finalScoresSpec rfId engC1 ("qq".data)) :=
  ⟨by norm_num [rfId], by norm_num [rfId], by norm_num [rfId],
   by norm_num [rfId],
   C1_totalTokens_code_bug rfId (by norm_num [rfId]) (by norm_num [rfId])
     (by norm_num [rfId]) (by norm_num [rfId])⟩
